import Mathlib

/-!
Verification of the version / compaction layer of the LevelDB fork
(`db/version_set.cc`, `db/dbformat.h`).

The C++ code is shallowly embedded: user keys are modelled as naturals
ordered by the user comparator (`ucmpCompare`), internal keys as
(user key, sequence, value type) triples compared exactly as
`InternalKeyComparator::Compare` does (user key ascending, 8-byte
trailer descending), and file metadata as a structure mirroring
`FileMetaData`.  Three-way comparators return `Int` with the C sign
conventions.
-/

namespace LevelDB

/-- `config::kNumLevels` from `db/dbformat.h`. -/
def kNumLevels : Nat := 7

/-- `config::kL0_CompactionTrigger` from `db/dbformat.h`. -/
def kL0CompactionTrigger : Nat := 4

/-- `config::kMaxMemCompactLevel` from `db/dbformat.h`. -/
def kMaxMemCompactLevel : Nat := 2

/-- `kTypeDeletion` (0x0) from `db/dbformat.h`. -/
def kTypeDeletion : Nat := 0

/-- `kTypeValue` (0x1) from `db/dbformat.h`. -/
def kTypeValue : Nat := 1

/-- The user comparator (`BytewiseComparator` specialised to naturals):
three-way compare with the C sign convention. -/
def ucmpCompare (a b : Nat) : Int :=
  if a < b then -1 else if b < a then 1 else 0

/-- An internal key: user key plus the (sequence, type) trailer, as packed by
`PackSequenceAndType` / `AppendInternalKey` in `db/dbformat.h`. -/
structure IKey where
  ukey : Nat
  seq : Nat
  vt : Nat
  deriving Repr, DecidableEq

/-- The 64-bit trailer `(sequence << 8) | type` of an internal key. -/
def IKey.trailer (k : IKey) : Nat := k.seq * 256 + k.vt

/-- `InternalKeyComparator::Compare`: order by user key ascending, then by
trailer descending (larger trailer sorts first). -/
def icmpCompare (a b : IKey) : Int :=
  if ucmpCompare a.ukey b.ukey = 0 then
    if a.trailer > b.trailer then -1
    else if a.trailer < b.trailer then 1
    else 0
  else ucmpCompare a.ukey b.ukey

/-- `FileMetaData` from `db/version_edit.h`: file number, size, smallest and
largest internal keys, and the seek-compaction budget `allowed_seeks`. -/
structure FMeta where
  number : Nat
  fileSize : Nat
  smallest : IKey
  largest : IKey
  allowedSeeks : Int := 0
  deriving Repr, DecidableEq

/-- A file meta entry is well formed when its smallest key is at most its
largest key. -/
def FMeta.wf (f : FMeta) : Prop := icmpCompare f.smallest f.largest ≤ 0

instance (f : FMeta) : Decidable f.wf :=
  inferInstanceAs (Decidable (icmpCompare f.smallest f.largest ≤ 0))

/-- `TotalFileSize` from `db/version_set.cc`. -/
def totalFileSize (files : List FMeta) : Nat :=
  files.foldl (fun sum f => sum + f.fileSize) 0

/-- `TargetFileSize` (`options->max_file_size`). -/
def targetFileSize (maxFileSize : Nat) : Nat := maxFileSize

/-- `MaxGrandParentOverlapBytes` = 10 × target file size. -/
def maxGrandParentOverlapBytes (maxFileSize : Nat) : Nat :=
  10 * targetFileSize maxFileSize

/-- `ExpandedCompactionByteSizeLimit` = 25 × target file size. -/
def expandedCompactionByteSizeLimit (maxFileSize : Nat) : Nat :=
  25 * targetFileSize maxFileSize

/-! ### Basic comparator lemmas -/

theorem ucmpCompare_eq_zero {a b : Nat} : ucmpCompare a b = 0 ↔ a = b := by
  unfold ucmpCompare; split_ifs <;> first | omega | (simp_all <;> omega)

theorem ucmpCompare_neg {a b : Nat} : ucmpCompare a b < 0 ↔ a < b := by
  unfold ucmpCompare; split_ifs <;> first | omega | (simp_all <;> omega)

theorem ucmpCompare_pos {a b : Nat} : 0 < ucmpCompare a b ↔ b < a := by
  unfold ucmpCompare; split_ifs <;> first | omega | (simp_all <;> omega)

/-- The strict order underlying `icmpCompare`. -/
def ikeyLt (a b : IKey) : Prop :=
  a.ukey < b.ukey ∨ (a.ukey = b.ukey ∧ b.trailer < a.trailer)

instance (a b : IKey) : Decidable (ikeyLt a b) :=
  inferInstanceAs (Decidable (a.ukey < b.ukey ∨
    (a.ukey = b.ukey ∧ b.trailer < a.trailer)))

theorem icmpCompare_neg {a b : IKey} : icmpCompare a b < 0 ↔ ikeyLt a b := by
  unfold icmpCompare ikeyLt ucmpCompare
  split_ifs <;> first | omega | (simp_all <;> omega)

theorem icmpCompare_eq_zero {a b : IKey} :
    icmpCompare a b = 0 ↔ (a.ukey = b.ukey ∧ a.trailer = b.trailer) := by
  unfold icmpCompare ucmpCompare
  split_ifs <;> first | omega | (simp_all <;> omega)

theorem icmpCompare_pos {a b : IKey} : 0 < icmpCompare a b ↔ ikeyLt b a := by
  unfold icmpCompare ikeyLt ucmpCompare
  split_ifs <;> first | omega | (simp_all <;> omega)

theorem icmpCompare_nonneg {a b : IKey} : 0 ≤ icmpCompare a b ↔ ¬ ikeyLt a b := by
  constructor
  · intro h hlt
    have := icmpCompare_neg.mpr hlt
    omega
  · intro h
    by_contra hc
    exact h (icmpCompare_neg.mp (by omega))

theorem ikeyLt_trans {a b c : IKey} (h₁ : ikeyLt a b) (h₂ : ikeyLt b c) :
    ikeyLt a c := by
  unfold ikeyLt at *
  omega

theorem ikeyLt_total (a b : IKey) :
    ikeyLt a b ∨ ikeyLt b a ∨ (a.ukey = b.ukey ∧ a.trailer = b.trailer) := by
  unfold ikeyLt
  omega

theorem ikeyLe_trans {a b c : IKey} (h₁ : ¬ ikeyLt b a) (h₂ : ¬ ikeyLt c b) :
    ¬ ikeyLt c a := by
  unfold ikeyLt at *
  omega

theorem ikeyLe_lt_trans {a b c : IKey} (h₁ : ¬ ikeyLt b a) (h₂ : ikeyLt b c) :
    ikeyLt a c := by
  unfold ikeyLt at *
  omega

theorem ikeyLt_le_trans {a b c : IKey} (h₁ : ikeyLt a b) (h₂ : ¬ ikeyLt c b) :
    ikeyLt a c := by
  unfold ikeyLt at *
  omega

instance : Inhabited IKey := ⟨⟨0, 0, 0⟩⟩

instance : Inhabited FMeta := ⟨⟨0, 0, default, default, 0⟩⟩

/-! ### `FindFile`: binary search over a level's file list -/

/-- The loop of `FindFile` (`db/version_set.cc`): binary search for the first
file whose largest key is `≥ key` under the internal-key comparator.
`left`/`right` are the loop variables; out-of-range accesses (which the C++
code never performs) read a default element. -/
def findFileLoop (files : List FMeta) (key : IKey) (left right : Nat) : Nat :=
  if _h : left < right then
    if icmpCompare (files.getD ((left + right) / 2) default).largest key < 0 then
      findFileLoop files key ((left + right) / 2 + 1) right
    else
      findFileLoop files key left ((left + right) / 2)
  else right
termination_by right - left
decreasing_by
  · omega
  · omega

/-- `FindFile` from `db/version_set.cc`. -/
def findFile (files : List FMeta) (key : IKey) : Nat :=
  findFileLoop files key 0 files.length

/-- The largest keys of `files` are non-decreasing (this follows from the
level-ordering invariant for levels ≥ 1). -/
def largestMono (files : List FMeta) : Prop :=
  ∀ i j : Nat, i ≤ j → j < files.length →
    ¬ ikeyLt (files.getD j default).largest (files.getD i default).largest

theorem findFileLoop_spec (files : List FMeta) (key : IKey)
    (mono : largestMono files) :
    ∀ fuel left right, right - left ≤ fuel →
    left ≤ right → right ≤ files.length →
    (∀ j, j < left → ikeyLt (files.getD j default).largest key) →
    (∀ j, right ≤ j → j < files.length →
        ¬ ikeyLt (files.getD j default).largest key) →
    (∀ j, j < findFileLoop files key left right →
        ikeyLt (files.getD j default).largest key) ∧
    (∀ j, findFileLoop files key left right ≤ j → j < files.length →
        ¬ ikeyLt (files.getD j default).largest key) ∧
    left ≤ findFileLoop files key left right ∧
    findFileLoop files key left right ≤ right := by
  intro fuel
  induction fuel with
  | zero =>
    intro left right hf hlr hrn hl hr
    have : left = right := by omega
    subst this
    rw [findFileLoop]
    simp only [lt_irrefl, dite_false]
    exact ⟨fun j hj => hl j hj, fun j h1 h2 => hr j h1 h2, le_refl _, le_refl _⟩
  | succ n ih =>
    intro left right hf hlr hrn hl hr
    rw [findFileLoop]
    by_cases h : left < right
    · simp only [h, dite_true]
      set mid := (left + right) / 2 with hmid
      have hm1 : left ≤ mid := by rw [hmid]; omega
      have hm2 : mid < right := by rw [hmid]; omega
      by_cases hc : icmpCompare (files.getD mid default).largest key < 0
      · simp only [hc, if_true]
        have hltm : ikeyLt (files.getD mid default).largest key :=
          icmpCompare_neg.mp hc
        have hl2 : ∀ j, j < mid + 1 →
            ikeyLt (files.getD j default).largest key := by
          intro j hj
          rcases Nat.lt_or_ge j left with hjl | hjl
          · exact hl j hjl
          · have := mono j mid (by omega) (by omega)
            exact ikeyLe_lt_trans this hltm
        have hrec := ih (mid + 1) right (by omega) (by omega) hrn hl2 hr
        exact ⟨hrec.1, hrec.2.1, Nat.le_trans (by omega) hrec.2.2.1,
          hrec.2.2.2⟩
      · simp only [hc, if_false]
        have hgem : ¬ ikeyLt (files.getD mid default).largest key := by
          intro hlt
          exact hc (icmpCompare_neg.mpr hlt)
        have hr2 : ∀ j, mid ≤ j → j < files.length →
            ¬ ikeyLt (files.getD j default).largest key := by
          intro j h1 h2
          have := mono mid j h1 h2
          exact ikeyLe_trans hgem this
        have hrec := ih left mid (by omega) (by omega) (by omega) hl hr2
        exact ⟨hrec.1, hrec.2.1, hrec.2.2.1,
          Nat.le_trans hrec.2.2.2 (by omega)⟩
    · simp only [h, dite_false]
      have : left = right := by omega
      subst this
      exact ⟨fun j hj => hl j hj, fun j h1 h2 => hr j h1 h2, le_refl _, le_refl _⟩

/-- `FindFile` on a list with monotone largest keys returns the index of the
first file whose largest key is `≥ key`; all files before that index have
largest key `< key`. -/
theorem findFile_spec (files : List FMeta) (key : IKey)
    (mono : largestMono files) :
    (∀ j, j < findFile files key →
        ikeyLt (files.getD j default).largest key) ∧
    (∀ j, findFile files key ≤ j → j < files.length →
        ¬ ikeyLt (files.getD j default).largest key) ∧
    findFile files key ≤ files.length := by
  have := findFileLoop_spec files key mono files.length 0 files.length
    (by omega) (by omega) (le_refl _)
    (fun j hj => absurd hj (by omega))
    (fun j h1 h2 => absurd h2 (by omega))
  exact ⟨this.1, this.2.1, this.2.2.2⟩

/-! ### `GetOverlappingInputs` -/

/-- `"f" is completely before specified range` test of `GetOverlappingInputs`:
`begin != NULL && user_cmp->Compare(file_limit, user_begin) < 0`. -/
def beforeRange (ub : Option Nat) (fileLimit : Nat) : Bool :=
  match ub with
  | none => false
  | some b => ucmpCompare fileLimit b < 0

/-- `"f" is completely after specified range` test of `GetOverlappingInputs`:
`end != NULL && user_cmp->Compare(file_start, user_end) > 0`. -/
def afterRange (ue : Option Nat) (fileStart : Nat) : Bool :=
  match ue with
  | none => false
  | some e => ucmpCompare fileStart e > 0

/-- Level-0 range-extension test on the begin side:
`begin != NULL && user_cmp->Compare(file_start, user_begin) < 0`. -/
def extendsBegin (ub : Option Nat) (fileStart : Nat) : Bool :=
  match ub with
  | none => false
  | some b => ucmpCompare fileStart b < 0

/-- Level-0 range-extension test on the end side:
`end != NULL && user_cmp->Compare(file_limit, user_end) > 0`. -/
def extendsEnd (ue : Option Nat) (fileLimit : Nat) : Bool :=
  match ue with
  | none => false
  | some e => ucmpCompare fileLimit e > 0

/-- Result of one pass of the `GetOverlappingInputs` scan: either the final
input list, or (for level 0) the widened `[user_begin, user_end]` bounds with
which the scan restarts from `i = 0` after `inputs->clear()`. -/
inductive ScanOut where
  | done (inputs : List FMeta)
  | restart (ub ue : Option Nat)
  deriving Repr, DecidableEq

/-- One pass of the `GetOverlappingInputs` loop body over the remaining
files, with `acc` the files pushed so far (in reverse). -/
def goiScan (level0 : Bool) (ub ue : Option Nat) (acc : List FMeta) :
    List FMeta → ScanOut
  | [] => .done acc.reverse
  | f :: rest =>
    if beforeRange ub f.largest.ukey then goiScan level0 ub ue acc rest
    else if afterRange ue f.smallest.ukey then goiScan level0 ub ue acc rest
    else if level0 && extendsBegin ub f.smallest.ukey then
      .restart (some f.smallest.ukey) ue
    else if level0 && extendsEnd ue f.largest.ukey then
      .restart ub (some f.largest.ukey)
    else goiScan level0 ub ue (f :: acc) rest

/-- Files that could still widen the begin bound. -/
def beginSlack (files : List FMeta) : Option Nat → Nat
  | none => 0
  | some b => (files.filter (fun f => f.smallest.ukey < b)).length

/-- Files that could still widen the end bound. -/
def endSlack (files : List FMeta) : Option Nat → Nat
  | none => 0
  | some e => (files.filter (fun f => e < f.largest.ukey)).length

/-- Termination measure for the restart loop of `GetOverlappingInputs`: how
many files could still widen each bound. -/
def goiMeasure (files : List FMeta) (ub ue : Option Nat) : Nat :=
  beginSlack files ub + endSlack files ue

theorem filter_length_lt {α : Type} (l : List α) (p q : α → Bool)
    (himp : ∀ a, p a = true → q a = true)
    (a : α) (ha : a ∈ l) (hq : q a = true) (hp : p a = false) :
    (l.filter p).length < (l.filter q).length := by
  induction l with
  | nil => cases ha
  | cons x xs ih =>
    have hsub := (List.monotone_filter_right xs himp).length_le
    rcases List.mem_cons.mp ha with rfl | hmem
    · rw [List.filter_cons_of_neg (by simp [hp]),
        List.filter_cons_of_pos hq, List.length_cons]
      omega
    · have step := ih hmem
      by_cases hpx : p x = true
      · rw [List.filter_cons_of_pos hpx,
          List.filter_cons_of_pos (himp x hpx), List.length_cons,
          List.length_cons]
        omega
      · rw [List.filter_cons_of_neg hpx]
        by_cases hqx : q x = true
        · rw [List.filter_cons_of_pos hqx, List.length_cons]
          omega
        · rw [List.filter_cons_of_neg hqx]
          exact step

theorem beforeRange_iff {ub : Option Nat} {fl : Nat} :
    beforeRange ub fl = true ↔ ∃ b, ub = some b ∧ fl < b := by
  cases ub <;> simp [beforeRange, ucmpCompare_neg]

theorem afterRange_iff {ue : Option Nat} {fs : Nat} :
    afterRange ue fs = true ↔ ∃ e, ue = some e ∧ e < fs := by
  cases ue <;> simp [afterRange, ucmpCompare_pos]

theorem extendsBegin_iff {ub : Option Nat} {s : Nat} :
    extendsBegin ub s = true ↔ ∃ b, ub = some b ∧ s < b := by
  cases ub <;> simp [extendsBegin, ucmpCompare_neg]

theorem extendsEnd_iff {ue : Option Nat} {l : Nat} :
    extendsEnd ue l = true ↔ ∃ e, ue = some e ∧ e < l := by
  cases ue <;> simp [extendsEnd, ucmpCompare_pos]

/-- A `restart` outcome of the scan comes from a file of the list that
strictly widens one of the two bounds. -/
theorem goiScan_restart_cases (level0 : Bool) :
    ∀ (l acc : List FMeta) (ub ue ub' ue' : Option Nat),
      goiScan level0 ub ue acc l = .restart ub' ue' →
      (∃ f ∈ l, ∃ b, ub = some b ∧ ub' = some f.smallest.ukey ∧
          f.smallest.ukey < b ∧ ue' = ue) ∨
      (∃ f ∈ l, ∃ e, ue = some e ∧ ue' = some f.largest.ukey ∧
          e < f.largest.ukey ∧ ub' = ub) := by
  intro l
  induction l with
  | nil =>
    intro acc ub ue ub' ue' h
    simp [goiScan] at h
  | cons f rest ih =>
    intro acc ub ue ub' ue' h
    rw [goiScan] at h
    split_ifs at h with h1 h2 h3 h4
    · rcases ih acc ub ue ub' ue' h with ⟨g, hg, rest⟩ | ⟨g, hg, rest⟩
      · exact Or.inl ⟨g, List.mem_cons_of_mem _ hg, rest⟩
      · exact Or.inr ⟨g, List.mem_cons_of_mem _ hg, rest⟩
    · rcases ih acc ub ue ub' ue' h with ⟨g, hg, rest⟩ | ⟨g, hg, rest⟩
      · exact Or.inl ⟨g, List.mem_cons_of_mem _ hg, rest⟩
      · exact Or.inr ⟨g, List.mem_cons_of_mem _ hg, rest⟩
    · cases h
      rcases extendsBegin_iff.mp (Bool.and_elim_right h3) with ⟨b, hb, hlt⟩
      exact Or.inl ⟨f, List.mem_cons_self _ _, b, hb, rfl, hlt, rfl⟩
    · cases h
      rcases extendsEnd_iff.mp (Bool.and_elim_right h4) with ⟨e, he, hlt⟩
      exact Or.inr ⟨f, List.mem_cons_self _ _, e, he, rfl, hlt, rfl⟩
    · rcases ih (f :: acc) ub ue ub' ue' h with ⟨g, hg, rest⟩ | ⟨g, hg, rest⟩
      · exact Or.inl ⟨g, List.mem_cons_of_mem _ hg, rest⟩
      · exact Or.inr ⟨g, List.mem_cons_of_mem _ hg, rest⟩

/-- On a `restart` the termination measure strictly decreases. -/
theorem goiScan_restart_measure (level0 : Bool) (files : List FMeta)
    {ub ue ub' ue' : Option Nat}
    (h : goiScan level0 ub ue [] files = .restart ub' ue') :
    goiMeasure files ub' ue' < goiMeasure files ub ue := by
  rcases goiScan_restart_cases level0 files [] ub ue ub' ue' h with
    ⟨f, hf, b, hub, hub', hlt, hue⟩ | ⟨f, hf, e, hue, hue', hlt, hub⟩
  · rw [hub, hub', hue]
    unfold goiMeasure
    have hdec : beginSlack files (some f.smallest.ukey) <
        beginSlack files (some b) := by
      unfold beginSlack
      apply filter_length_lt files _ _ ?_ f hf
      · simp only [decide_eq_true_eq]; omega
      · simp only [decide_eq_false_iff_not]; omega
      · intro a ha
        simp only [decide_eq_true_eq] at ha ⊢
        omega
    omega
  · rw [hue, hue', hub]
    unfold goiMeasure
    have hdec : endSlack files (some f.largest.ukey) <
        endSlack files (some e) := by
      unfold endSlack
      apply filter_length_lt files _ _ ?_ f hf
      · simp only [decide_eq_true_eq]; omega
      · simp only [decide_eq_false_iff_not]; omega
      · intro a ha
        simp only [decide_eq_true_eq] at ha ⊢
        omega
    omega

/-- The restart loop of `GetOverlappingInputs`: run the scan; on the widened
bounds produced by a level-0 expansion, clear the inputs and restart. -/
def goiLoop (files : List FMeta) (level0 : Bool) (ub ue : Option Nat) :
    List FMeta :=
  match h : goiScan level0 ub ue [] files with
  | .done inputs => inputs
  | .restart ub' ue' => goiLoop files level0 ub' ue'
termination_by goiMeasure files ub ue
decreasing_by
  exact goiScan_restart_measure level0 files h

/-- `Version::GetOverlappingInputs` (`db/version_set.cc`), applied to the
file list of the given level; `b`/`e` model the possibly-NULL `begin`/`end`
internal keys, of which only the user-key part is used. -/
def getOverlappingInputs (level : Nat) (b e : Option IKey)
    (files : List FMeta) : List FMeta :=
  goiLoop files (level == 0) (b.map IKey.ukey) (e.map IKey.ukey)

/-- The per-file test the scan applies: not completely before and not
completely after the current `[user_begin, user_end]` range. -/
def overlapsRange (ub ue : Option Nat) (f : FMeta) : Bool :=
  !beforeRange ub f.largest.ukey && !afterRange ue f.smallest.ukey

/-- For levels ≥ 1 the scan never restarts: it returns the plain filter. -/
theorem goiScan_false (ub ue : Option Nat) :
    ∀ (l acc : List FMeta),
      goiScan false ub ue acc l =
        .done (acc.reverse ++ l.filter (overlapsRange ub ue)) := by
  intro l
  induction l with
  | nil => intro acc; simp [goiScan]
  | cons f rest ih =>
    intro acc
    rw [goiScan]
    by_cases h1 : beforeRange ub f.largest.ukey
    · simp only [h1, if_true, ih]
      have : overlapsRange ub ue f = false := by
        simp [overlapsRange, h1]
      rw [List.filter_cons_of_neg (by simp [this])]
    · by_cases h2 : afterRange ue f.smallest.ukey
      · simp only [h1, h2, if_true, if_false, Bool.false_eq_true, ite_false,
          ite_true, ih]
        have : overlapsRange ub ue f = false := by
          simp [overlapsRange, h2]
        rw [List.filter_cons_of_neg (by simp [this])]
      · have hov : overlapsRange ub ue f = true := by
          simp [overlapsRange, h1, h2]
        simp only [h1, h2, Bool.false_eq_true, ite_false, Bool.false_and,
          if_false, ih]
        rw [List.filter_cons_of_pos hov]
        simp

/-- For level 0, a completed scan returns the filter for the current bounds,
and every kept file fits inside those bounds (otherwise the scan would have
restarted). -/
theorem goiScan_true_done (ub ue : Option Nat) :
    ∀ (l acc : List FMeta) (res : List FMeta),
      goiScan true ub ue acc l = .done res →
      res = acc.reverse ++ l.filter (overlapsRange ub ue) ∧
      (∀ f ∈ l, overlapsRange ub ue f = true →
        extendsBegin ub f.smallest.ukey = false ∧
        extendsEnd ue f.largest.ukey = false) := by
  intro l
  induction l with
  | nil =>
    intro acc res h
    simp [goiScan] at h
    simp [h.symm]
  | cons f rest ih =>
    intro acc res h
    rw [goiScan] at h
    by_cases h1 : beforeRange ub f.largest.ukey
    · simp only [h1, if_true] at h
      have hov : overlapsRange ub ue f = false := by
        simp [overlapsRange, h1]
      rcases ih acc res h with ⟨hres, hfit⟩
      refine ⟨?_, ?_⟩
      · rw [List.filter_cons_of_neg (by simp [hov]), hres]
      · intro g hg hovg
        rcases List.mem_cons.mp hg with rfl | hmem
        · rw [hovg] at hov; cases hov
        · exact hfit g hmem hovg
    · by_cases h2 : afterRange ue f.smallest.ukey
      · simp only [h1, h2, Bool.false_eq_true, ite_false, if_true] at h
        have hov : overlapsRange ub ue f = false := by
          simp [overlapsRange, h2]
        rcases ih acc res h with ⟨hres, hfit⟩
        refine ⟨?_, ?_⟩
        · rw [List.filter_cons_of_neg (by simp [hov]), hres]
        · intro g hg hovg
          rcases List.mem_cons.mp hg with rfl | hmem
          · rw [hovg] at hov; cases hov
          · exact hfit g hmem hovg
      · have hov : overlapsRange ub ue f = true := by
          simp [overlapsRange, h1, h2]
        by_cases h3 : extendsBegin ub f.smallest.ukey
        · simp only [h1, h2, h3, Bool.false_eq_true, ite_false, Bool.true_and,
            if_true] at h
          cases h
        · by_cases h4 : extendsEnd ue f.largest.ukey
          · simp only [h1, h2, h3, h4, Bool.false_eq_true, ite_false,
              Bool.true_and, if_true] at h
            cases h
          · simp only [h1, h2, h3, h4, Bool.false_eq_true, ite_false,
              Bool.true_and] at h
            rcases ih (f :: acc) res h with ⟨hres, hfit⟩
            refine ⟨?_, ?_⟩
            · rw [List.filter_cons_of_pos hov, hres]
              simp
            · intro g hg hovg
              rcases List.mem_cons.mp hg with rfl | hmem
              · exact ⟨Bool.not_eq_true _ ▸ (by simpa using h3),
                  Bool.not_eq_true _ ▸ (by simpa using h4)⟩
              · exact hfit g hmem hovg

/-- `x` and `y` are both absent or both present with the value of `x` at
most that of `y`. -/
def optWle (x y : Option Nat) : Prop :=
  match x, y with
  | none, none => True
  | some a, some b => a ≤ b
  | _, _ => False

theorem optWle_refl (x : Option Nat) : optWle x x := by
  cases x <;> simp [optWle]

theorem optWle_trans {x y z : Option Nat} (h₁ : optWle x y) (h₂ : optWle y z) :
    optWle x z := by
  cases x <;> cases y <;> cases z <;> simp_all [optWle] <;> omega

/-- The fixed point reached by the `GetOverlappingInputs` restart loop at
level 0: final widened bounds such that the result is exactly the filter for
those bounds and every selected file fits inside them. -/
theorem goiLoop_true_spec (files : List FMeta) :
    ∀ (n : Nat) (ub ue : Option Nat), goiMeasure files ub ue ≤ n →
    ∃ ubF ueF, optWle ubF ub ∧ optWle ue ueF ∧
      goiLoop files true ub ue = files.filter (overlapsRange ubF ueF) ∧
      (∀ f ∈ files, overlapsRange ubF ueF f = true →
        extendsBegin ubF f.smallest.ukey = false ∧
        extendsEnd ueF f.largest.ukey = false) := by
  intro n
  induction n with
  | zero =>
    intro ub ue hm
    rw [goiLoop]
    split
    · rename_i inputs heq
      rcases goiScan_true_done ub ue files [] inputs heq with ⟨hres, hfit⟩
      exact ⟨ub, ue, optWle_refl _, optWle_refl _, by simpa using hres, hfit⟩
    · rename_i ub' ue' heq
      have := goiScan_restart_measure true files heq
      omega
  | succ n ih =>
    intro ub ue hm
    rw [goiLoop]
    split
    · rename_i inputs heq
      rcases goiScan_true_done ub ue files [] inputs heq with ⟨hres, hfit⟩
      exact ⟨ub, ue, optWle_refl _, optWle_refl _, by simpa using hres, hfit⟩
    · rename_i ub' ue' heq
      have hmeas := goiScan_restart_measure true files heq
      rcases ih ub' ue' (by omega) with ⟨ubF, ueF, hw1, hw2, hres, hfit⟩
      refine ⟨ubF, ueF, ?_, ?_, hres, hfit⟩
      · rcases goiScan_restart_cases true files [] ub ue ub' ue' heq with
          ⟨f, _, b, hub, hub', _, _⟩ | ⟨f, _, e, _, _, _, hub⟩
        · apply optWle_trans hw1
          rw [hub, hub']
          simp only [optWle]
          omega
        · rw [← hub]; exact hw1
      · rcases goiScan_restart_cases true files [] ub ue ub' ue' heq with
          ⟨f, _, b, _, _, _, hue⟩ | ⟨f, _, e, hue, hue', hlt, _⟩
        · rw [← hue]; exact hw2
        · apply optWle_trans ?_ hw2
          rw [hue, hue']
          simp only [optWle]
          omega

theorem goiLoop_false (files : List FMeta) (ub ue : Option Nat) :
    goiLoop files false ub ue = files.filter (overlapsRange ub ue) := by
  rw [goiLoop]
  split
  · rename_i inputs heq
    rw [goiScan_false] at heq
    simpa using (ScanOut.done.injEq _ _).mp heq.symm
  · rename_i ub' ue' heq
    rw [goiScan_false] at heq
    cases heq

theorem beforeRange_eq_false {ub : Option Nat} {fl : Nat} :
    beforeRange ub fl = false ↔ ∀ b, ub = some b → b ≤ fl := by
  cases ub <;> simp [beforeRange, ucmpCompare_neg] <;> omega

theorem afterRange_eq_false {ue : Option Nat} {fs : Nat} :
    afterRange ue fs = false ↔ ∀ e, ue = some e → fs ≤ e := by
  cases ue <;> simp [afterRange, ucmpCompare_pos] <;> omega

theorem extendsBegin_eq_false {ub : Option Nat} {s : Nat} :
    extendsBegin ub s = false ↔ ∀ b, ub = some b → b ≤ s := by
  cases ub <;> simp [extendsBegin, ucmpCompare_neg] <;> omega

theorem extendsEnd_eq_false {ue : Option Nat} {l : Nat} :
    extendsEnd ue l = false ↔ ∀ e, ue = some e → l ≤ e := by
  cases ue <;> simp [extendsEnd, ucmpCompare_pos] <;> omega

/-- The user-key range of `f` meets the (possibly one- or two-sided) user-key
window `[ub, ue]`: there is a common point. -/
def rangeIntersects (ub ue : Option Nat) (f : FMeta) : Prop :=
  ∃ k, (∀ b, ub = some b → b ≤ k) ∧ (∀ e, ue = some e → k ≤ e) ∧
    f.smallest.ukey ≤ k ∧ k ≤ f.largest.ukey

/-- The user-key ranges of two files have a common point. -/
def userOverlap (g f : FMeta) : Prop :=
  ∃ k, g.smallest.ukey ≤ k ∧ k ≤ g.largest.ukey ∧
    f.smallest.ukey ≤ k ∧ k ≤ f.largest.ukey

/-- The scan's skip test is exactly range intersection, for a well-formed
file and a non-empty window. -/
theorem overlapsRange_iff_intersects {ub ue : Option Nat} {f : FMeta}
    (hf : f.smallest.ukey ≤ f.largest.ukey)
    (hbe : ∀ b e, ub = some b → ue = some e → b ≤ e) :
    overlapsRange ub ue f = true ↔ rangeIntersects ub ue f := by
  unfold overlapsRange rangeIntersects
  rw [Bool.and_eq_true, Bool.not_eq_true', Bool.not_eq_true',
    beforeRange_eq_false, afterRange_eq_false]
  constructor
  · rintro ⟨h1, h2⟩
    cases ub with
    | none =>
      exact ⟨f.smallest.ukey, by simp, fun e he => h2 e he, le_refl _, hf⟩
    | some b =>
      refine ⟨max f.smallest.ukey b, ?_, ?_, le_max_left _ _, ?_⟩
      · intro b' hb'
        injection hb' with hh
        subst hh
        exact le_max_right _ _
      · intro e he
        have hbl := hbe b e rfl he
        have hse := h2 e he
        omega
      · have := h1 b rfl
        omega
  · rintro ⟨k, hb, he, h1, h2⟩
    refine ⟨?_, ?_⟩
    · intro b hub
      have := hb b hub
      omega
    · intro e hue
      have := he e hue
      omega

/-- Widening the window preserves intersection-implied selection. -/
theorem overlapsRange_widen {ub ue ubF ueF : Option Nat} {f : FMeta}
    (h1 : optWle ubF ub) (h2 : optWle ue ueF)
    (h : rangeIntersects ub ue f) : overlapsRange ubF ueF f = true := by
  rcases h with ⟨k, hb, he, h3, h4⟩
  unfold overlapsRange
  rw [Bool.and_eq_true, Bool.not_eq_true', Bool.not_eq_true',
    beforeRange_eq_false, afterRange_eq_false]
  constructor
  · intro bf hbf
    subst hbf
    cases ub with
    | none => simp [optWle] at h1
    | some bu =>
      simp only [optWle] at h1
      have := hb bu rfl
      omega
  · intro ef hef
    subst hef
    cases ue with
    | none => simp [optWle] at h2
    | some eu =>
      simp only [optWle] at h2
      have := he eu rfl
      omega

/-- **C4**: for every level ≥ 1 and bound pair (each possibly NULL),
`GetOverlappingInputs` returns exactly the files of that level whose
user-key range intersects `[begin, end]`; for level 0 the returned list
contains every level-0 file intersecting the original window and is closed
under overlap: any level-0 file overlapping the user-key span of a returned
file is also returned. -/
theorem getOverlappingInputs_spec (level : Nat) (b e : Option IKey)
    (files : List FMeta)
    (hwf : ∀ f ∈ files, f.smallest.ukey ≤ f.largest.ukey)
    (hbe : ∀ bb ee, b = some bb → e = some ee → bb.ukey ≤ ee.ukey) :
    (1 ≤ level →
      getOverlappingInputs level b e files =
        files.filter (overlapsRange (b.map IKey.ukey) (e.map IKey.ukey)) ∧
      ∀ f ∈ files,
        (overlapsRange (b.map IKey.ukey) (e.map IKey.ukey) f = true ↔
          rangeIntersects (b.map IKey.ukey) (e.map IKey.ukey) f)) ∧
    (level = 0 →
      (∀ f ∈ files,
        rangeIntersects (b.map IKey.ukey) (e.map IKey.ukey) f →
        f ∈ getOverlappingInputs level b e files) ∧
      (∀ f ∈ getOverlappingInputs level b e files, ∀ g ∈ files,
        userOverlap g f → g ∈ getOverlappingInputs level b e files)) := by
  have hbe' : ∀ bb ee, b.map IKey.ukey = some bb →
      e.map IKey.ukey = some ee → bb ≤ ee := by
    intro bb ee h1 h2
    rcases Option.map_eq_some'.mp h1 with ⟨kb, hkb, hkb'⟩
    rcases Option.map_eq_some'.mp h2 with ⟨ke, hke, hke'⟩
    rw [← hkb', ← hke']
    exact hbe kb ke hkb hke
  constructor
  · intro hlev
    have hne : (level == 0) = false := by
      simp only [beq_eq_false_iff_ne, ne_eq]
      omega
    unfold getOverlappingInputs
    rw [hne, goiLoop_false]
    exact ⟨rfl, fun f hf => overlapsRange_iff_intersects (hwf f hf) hbe'⟩
  · intro hlev
    subst hlev
    unfold getOverlappingInputs
    simp only [beq_self_eq_true]
    rcases goiLoop_true_spec files
        (goiMeasure files (b.map IKey.ukey) (e.map IKey.ukey))
        (b.map IKey.ukey) (e.map IKey.ukey) (le_refl _) with
      ⟨ubF, ueF, hw1, hw2, hres, hfit⟩
    rw [hres]
    constructor
    · intro f hf hint
      exact List.mem_filter.mpr ⟨hf, overlapsRange_widen hw1 hw2 hint⟩
    · intro f hf g hg hov
      rcases List.mem_filter.mp hf with ⟨hfmem, hfov⟩
      rcases hfit f hfmem hfov with ⟨hxb, hxe⟩
      rcases hov with ⟨k, hg1, hg2, hf1, hf2⟩
      apply List.mem_filter.mpr
      refine ⟨hg, ?_⟩
      unfold overlapsRange
      rw [Bool.and_eq_true, Bool.not_eq_true', Bool.not_eq_true',
        beforeRange_eq_false, afterRange_eq_false]
      constructor
      · intro bf hbf
        have := extendsBegin_eq_false.mp hxb bf hbf
        omega
      · intro ef hef
        have := extendsEnd_eq_false.mp hxe ef hef
        omega

/-- Concrete window and level-0 file list used to witness
`getOverlappingInputs_spec`. -/
def c4B : Option IKey := some ⟨5, 0, 0⟩

/-- End of the concrete window for the `getOverlappingInputs_spec` witness. -/
def c4E : Option IKey := some ⟨15, 0, 0⟩

/-- A level-0 file spanning user keys 10..20. -/
def c4f2 : FMeta := ⟨2, 100, ⟨10, 7, 1⟩, ⟨20, 3, 1⟩, 0⟩

/-- Concrete level-0 file list for the `getOverlappingInputs_spec` witness. -/
def c4Files : List FMeta :=
  [⟨1, 100, ⟨0, 9, 1⟩, ⟨10, 2, 1⟩, 0⟩, c4f2, ⟨3, 100, ⟨30, 5, 1⟩, ⟨40, 1, 1⟩, 0⟩]

theorem getOverlappingInputs_spec_witness :
    (∀ f ∈ c4Files, f.smallest.ukey ≤ f.largest.ukey) ∧
    c4f2 ∈ getOverlappingInputs 0 c4B c4E c4Files := by
  refine ⟨by decide, ?_⟩
  have h := (getOverlappingInputs_spec 0 c4B c4E c4Files (by decide)
    (by intro bb ee h1 h2; cases h1; cases h2; decide)).2 rfl
  exact h.1 c4f2 (by decide)
    ⟨10, fun b hb => by cases hb; decide, fun e he => by cases he; decide,
      by decide, by decide⟩

/-! ### `Version::Get` -/

/-- Outcome of probing one sstable for the lookup key: the `Saver` state left
by `TableCache::Get` + `SaveValue`, or a non-ok status from the table cache
itself. -/
inductive TProbe where
  | ioError
  | notFound
  | found (value : Nat)
  | deleted
  | corrupt
  deriving Repr, DecidableEq

/-- The status `Version::Get` returns. -/
inductive GetStatus where
  | ok (value : Nat)
  | notFound
  | corruption
  | ioError
  deriving Repr, DecidableEq

/-- `Version::GetStats` (`db/version_set.h`). -/
structure GetStats where
  seekFile : Option FMeta
  seekFileLevel : Int
  deriving Repr, DecidableEq

/-- The local state of `Version::Get`'s loops (`stats`, `last_file_read`,
`last_file_read_level`), plus a ghost trace of the files consulted, in
order, tagged with their level. -/
structure GetIter where
  stats : GetStats
  lastFileRead : Option FMeta
  lastFileReadLevel : Int
  consulted : List (Nat × FMeta)
  deriving Repr, DecidableEq

/-- `NewestFirst` (`db/version_set.cc`) as the non-strict total order
`std::sort` establishes: larger file number first. -/
def newestFirst (a b : FMeta) : Prop := b.number ≤ a.number

instance : DecidableRel newestFirst :=
  fun a b => inferInstanceAs (Decidable (b.number ≤ a.number))

/-- `std::sort(tmp.begin(), tmp.end(), NewestFirst)`: sort by file number
descending. -/
def sortNewestFirst (l : List FMeta) : List FMeta :=
  List.insertionSort newestFirst l

/-- The level-0 candidate collection of `Version::Get`: all files whose
user-key range contains the lookup user key, sorted newest first. -/
def level0Candidates (userKey : Nat) (files : List FMeta) : List FMeta :=
  sortNewestFirst (files.filter (fun f =>
    ucmpCompare userKey f.smallest.ukey ≥ 0 ∧
    ucmpCompare userKey f.largest.ukey ≤ 0))

/-- The level ≥ 1 candidate computation of `Version::Get`: binary-search
(`FindFile`) for the internal key, then discard the file when the user key
lies before its smallest user key. -/
def levelCandidates (ikey : IKey) (files : List FMeta) : List FMeta :=
  let index := findFile files ikey
  if index ≥ files.length then []
  else
    let tmp2 := files.getD index default
    if ucmpCompare ikey.ukey tmp2.smallest.ukey < 0 then []
    else [tmp2]

/-- The body of `Version::Get`'s inner loop over the candidate files of one
level: update the seek statistic when a second file is about to be read,
record the probe, and dispatch on the saver state (`kFound` and table-cache
errors return, `kDeleted` returns NotFound, `kCorrupt` returns Corruption,
`kNotFound` keeps searching). `none` in the first component means the loop
fell through to the next level. -/
def probeFiles (tget : Nat → TProbe) (level : Nat) :
    List FMeta → GetIter → Option GetStatus × GetIter
  | [], st => (none, st)
  | f :: rest, st =>
    let st1 :=
      if st.lastFileRead.isSome ∧ st.stats.seekFile = none then
        { st with stats :=
            ⟨st.lastFileRead, st.lastFileReadLevel⟩ }
      else st
    let st2 := { st1 with
      lastFileRead := some f,
      lastFileReadLevel := (level : Int),
      consulted := st1.consulted ++ [(level, f)] }
    match tget f.number with
    | .ioError => (some .ioError, st2)
    | .notFound => probeFiles tget level rest st2
    | .found v => (some (.ok v), st2)
    | .deleted => (some .notFound, st2)
    | .corrupt => (some .corruption, st2)

/-- The level loop of `Version::Get`: search each level in increasing order,
computing the candidate files of the level and probing them; return on the
first decisive probe, `NotFound` when every level is exhausted. -/
def getLoop (tget : Nat → TProbe) (ikey : IKey) :
    List (List FMeta) → Nat → GetIter → GetStatus × GetIter
  | [], _, st => (.notFound, st)
  | lvlFiles :: rest, level, st =>
    let cand :=
      if level = 0 then level0Candidates ikey.ukey lvlFiles
      else levelCandidates ikey lvlFiles
    match probeFiles tget level cand st with
    | (some s, st') => (s, st')
    | (none, st') => getLoop tget ikey rest (level + 1) st'

/-- A version: the file lists of the `config::kNumLevels` levels plus the
compaction bookkeeping fields of `class Version` (`db/version_set.h`). -/
structure Version where
  files : List (List FMeta)
  fileToCompact : Option FMeta := none
  fileToCompactLevel : Int := -1
  compactionScore : ℚ := -1
  compactionLevel : Int := -1
  deriving Repr, DecidableEq

/-- `Version::Get` (`db/version_set.cc`): `tget` models
`TableCache::Get` applied to a file (keyed by its number) for the fixed
lookup key; the result carries the returned status and the final loop
state, whose ghost trace lists the consulted files. -/
def Version.get (v : Version) (tget : Nat → TProbe) (ikey : IKey) :
    GetStatus × GetIter :=
  getLoop tget ikey v.files 0 ⟨⟨none, -1⟩, none, -1, []⟩

/-! #### Specification-side description of the lookup -/

/-- Modelled from the spec's words: at level 0 the files
"overlapping the user key, sorted by file number desc". -/
def specLevel0Candidates (userKey : Nat) (files : List FMeta) : List FMeta :=
  sortNewestFirst (files.filter (fun f =>
    f.smallest.ukey ≤ userKey ∧ userKey ≤ f.largest.ukey))

/-- Modelled from the spec's words: at a level ≥ 1 at most the single
candidate file — the first file whose largest key is ≥ the internal key —
skipped when the user key is below that file's smallest user key. -/
def specLevelCandidates (ikey : IKey) (files : List FMeta) : List FMeta :=
  match files.find? (fun f => !(decide (ikeyLt f.largest ikey))) with
  | none => []
  | some f => if ikey.ukey < f.smallest.ukey then [] else [f]

/-- All candidate files of a lookup, tagged with their level, in search
order (level 0 first, then each higher level). -/
def specCandidatesFrom (ikey : IKey) :
    List (List FMeta) → Nat → List (Nat × FMeta)
  | [], _ => []
  | lf :: rest, level =>
    (if level = 0 then specLevel0Candidates ikey.ukey lf
     else specLevelCandidates ikey lf).map (fun f => (level, f)) ++
    specCandidatesFrom ikey rest (level + 1)

/-- The candidate list of a version. -/
def specCandidates (v : Version) (ikey : IKey) : List (Nat × FMeta) :=
  specCandidatesFrom ikey v.files 0

/-- A probe outcome is decisive iff it makes `Version::Get` return
immediately (everything except the saver's `kNotFound`). -/
def decisive (p : TProbe) : Bool :=
  match p with
  | .notFound => false
  | _ => true

/-- The status `Version::Get` reports for a decisive probe. -/
def probeOutcome : TProbe → GetStatus
  | .ioError => .ioError
  | .notFound => .notFound
  | .found v => .ok v
  | .deleted => .notFound
  | .corrupt => .corruption

/-- The status of a lookup according to the spec: the outcome of the first
decisive probe in candidate order, `NotFound` when no probe is decisive. -/
def specGetStatus (tget : Nat → TProbe) (cands : List (Nat × FMeta)) :
    GetStatus :=
  match cands.find? (fun c => decisive (tget c.2.number)) with
  | some c => probeOutcome (tget c.2.number)
  | none => .notFound

/-- The files a lookup consults according to the spec: all candidates up to
and including the first decisive one. -/
def specConsulted (tget : Nat → TProbe) (cands : List (Nat × FMeta)) :
    List (Nat × FMeta) :=
  cands.take (cands.findIdx (fun c => decisive (tget c.2.number)) + 1)

theorem ucmpCompare_nonneg {a b : Nat} : 0 ≤ ucmpCompare a b ↔ b ≤ a := by
  unfold ucmpCompare; split_ifs <;> omega

theorem ucmpCompare_nonpos {a b : Nat} : ucmpCompare a b ≤ 0 ↔ a ≤ b := by
  unfold ucmpCompare; split_ifs <;> omega

theorem find?_eq_some_getD {α : Type} [Inhabited α] (l : List α)
    (p : α → Bool) (n : Nat) (hn : n < l.length)
    (hp : p (l.getD n default) = true)
    (hbefore : ∀ j, j < n → p (l.getD j default) = false) :
    l.find? p = some (l.getD n default) := by
  induction l generalizing n with
  | nil => simp at hn
  | cons x xs ih =>
    cases n with
    | zero =>
      simp only [List.getD_cons_zero] at hp ⊢
      simp [List.find?_cons, hp]
    | succ m =>
      have h0 := hbefore 0 (Nat.succ_pos _)
      simp only [List.getD_cons_zero] at h0
      simp only [List.getD_cons_succ] at hp ⊢
      rw [List.find?_cons, h0]
      exact ih m (by simpa using hn) hp
        (fun j hj => by
          have := hbefore (j + 1) (by omega)
          simpa using this)

theorem findIdx_append_of_none {α : Type} (l₁ l₂ : List α) (p : α → Bool)
    (h : ∀ x ∈ l₁, p x = false) :
    (l₁ ++ l₂).findIdx p = l₁.length + l₂.findIdx p := by
  induction l₁ with
  | nil => simp
  | cons x xs ih =>
    rw [List.cons_append, List.findIdx_cons,
      h x (List.mem_cons_self _ _)]
    simp only [cond_false, List.length_cons]
    rw [ih (fun y hy => h y (List.mem_cons_of_mem _ hy))]
    omega

theorem findIdx_lt_of_find?_some {α : Type} {l : List α} {p : α → Bool}
    {a : α} (h : l.find? p = some a) : l.findIdx p < l.length := by
  rcases Nat.lt_or_ge (l.findIdx p) l.length with hlt | hge
  · exact hlt
  · have : l.findIdx p = l.length := by
      have := @List.findIdx_le_length _ p l
      omega
    rw [List.findIdx_eq_length] at this
    rw [List.find?_eq_none.mpr (fun x hx => by simp [this x hx])] at h
    cases h

theorem ite_stats_consulted (st : GetIter) (c : Prop) [Decidable c]
    (s' : GetStats) :
    (if c then { st with stats := s' } else st).consulted = st.consulted := by
  split <;> rfl

/-- Running the inner loop of `Version::Get` over one level's candidates:
the result is the outcome of the first decisive probe (`none` when the loop
falls through), and the trace grows by the candidates up to and including
the first decisive one. -/
theorem probeFiles_run (tget : Nat → TProbe) (level : Nat) :
    ∀ (cand : List FMeta) (st : GetIter),
      (probeFiles tget level cand st).1 =
        (cand.find? (fun f => decisive (tget f.number))).map
          (fun f => probeOutcome (tget f.number)) ∧
      (probeFiles tget level cand st).2.consulted =
        st.consulted ++
          (cand.take (cand.findIdx (fun f => decisive (tget f.number)) + 1)).map
            (fun f => (level, f)) := by
  intro cand
  induction cand with
  | nil => intro st; simp [probeFiles]
  | cons f rest ih =>
    intro st
    simp only [probeFiles]
    cases hp : tget f.number with
    | ioError =>
      simp [hp, decisive, probeOutcome, List.find?_cons, List.findIdx_cons,
        ite_stats_consulted]
    | notFound =>
      dsimp only
      refine ⟨?_, ?_⟩
      · rw [(ih _).1]
        simp [decisive, List.find?_cons, hp]
      · rw [(ih _).2]
        simp only [GetIter.consulted, ite_stats_consulted, List.findIdx_cons,
          hp, decisive, cond_false, List.take_succ_cons, List.map_cons,
          List.append_assoc, List.cons_append, List.nil_append]
    | found v =>
      simp [hp, decisive, probeOutcome, List.find?_cons, List.findIdx_cons,
        ite_stats_consulted]
    | deleted =>
      simp [hp, decisive, probeOutcome, List.find?_cons, List.findIdx_cons,
        ite_stats_consulted]
    | corrupt =>
      simp [hp, decisive, probeOutcome, List.find?_cons, List.findIdx_cons,
        ite_stats_consulted]

theorem findIdx_map {α β : Type} (l : List α) (g : α → β) (p : β → Bool) :
    (l.map g).findIdx p = l.findIdx (fun a => p (g a)) := by
  induction l with
  | nil => simp
  | cons x xs ih =>
    simp only [List.map_cons, List.findIdx_cons, ih]

theorem findIdx_append_of_lt {α : Type} (l₁ l₂ : List α) (p : α → Bool)
    (h : l₁.findIdx p < l₁.length) :
    (l₁ ++ l₂).findIdx p = l₁.findIdx p := by
  induction l₁ with
  | nil => simp at h
  | cons x xs ih =>
    rw [List.cons_append, List.findIdx_cons, List.findIdx_cons]
    cases hx : p x with
    | true => simp
    | false =>
      simp only [cond_false, Nat.add_right_cancel_iff]
      apply ih
      rw [List.findIdx_cons, hx] at h
      simp only [cond_false, List.length_cons] at h
      omega

/-- The impl-side and spec-side level-0 candidate lists coincide. -/
theorem level0Candidates_eq (u : Nat) (files : List FMeta) :
    level0Candidates u files = specLevel0Candidates u files := by
  unfold level0Candidates specLevel0Candidates
  congr 1
  apply List.filter_congr
  intro f _
  simp only [decide_eq_decide, ge_iff_le, ucmpCompare_nonneg,
    ucmpCompare_nonpos]

/-- Under the level-ordering invariant, the binary search of
`Version::Get` at a level ≥ 1 selects the first file whose largest key is
`≥` the lookup's internal key (the spec-side description). -/
theorem levelCandidates_eq (ikey : IKey) (files : List FMeta)
    (mono : largestMono files) :
    levelCandidates ikey files = specLevelCandidates ikey files := by
  obtain ⟨h1, h2, h3⟩ := findFile_spec files ikey mono
  unfold levelCandidates specLevelCandidates
  by_cases hge : findFile files ikey ≥ files.length
  · have hnone : files.find? (fun f => !(decide (ikeyLt f.largest ikey)))
        = none := by
      apply List.find?_eq_none.mpr
      intro x hx
      rcases List.mem_iff_getElem.mp hx with ⟨j, hj, rfl⟩
      have := h1 j (by omega)
      rw [List.getD_eq_getElem files default hj] at this
      simp [this]
    rw [hnone]
    simp [hge]
  · push_neg at hge
    have hsome : files.find? (fun f => !(decide (ikeyLt f.largest ikey)))
        = some (files.getD (findFile files ikey) default) := by
      apply find?_eq_some_getD files _ (findFile files ikey) hge
      · have := h2 (findFile files ikey) (le_refl _) hge
        simpa [List.getD] using this
      · intro j hj
        have := h1 j hj
        simpa [List.getD] using this
    rw [hsome]
    simp only [ge_iff_le, not_le.mpr hge, if_false, ite_false]
    split_ifs with ha hb hb
    · rfl
    · rw [ucmpCompare_neg] at ha
      exact absurd ha hb
    · rw [← ucmpCompare_neg] at hb
      exact absurd hb ha
    · rfl

/-- The level loop of `Version::Get` agrees with the spec-side description:
its status is the outcome of the first decisive probe over the candidate
list, and it consults exactly the candidates up to that probe. -/
theorem getLoop_spec (tget : Nat → TProbe) (ikey : IKey) :
    ∀ (lvls : List (List FMeta)) (level : Nat) (st : GetIter),
      (∀ i, 1 ≤ level + i → i < lvls.length → largestMono (lvls.getD i [])) →
      (getLoop tget ikey lvls level st).1 =
        specGetStatus tget (specCandidatesFrom ikey lvls level) ∧
      (getLoop tget ikey lvls level st).2.consulted =
        st.consulted ++ specConsulted tget (specCandidatesFrom ikey lvls level) := by
  intro lvls
  induction lvls with
  | nil =>
    intro level st _
    simp [getLoop, specCandidatesFrom, specConsulted, specGetStatus]
  | cons lf rest ih =>
    intro level st hmono
    have hcand : (if level = 0 then level0Candidates ikey.ukey lf
        else levelCandidates ikey lf) =
        (if level = 0 then specLevel0Candidates ikey.ukey lf
        else specLevelCandidates ikey lf) := by
      by_cases h0 : level = 0
      · simp [h0, level0Candidates_eq]
      · have hm : largestMono lf := by
          have := hmono 0 (by omega) (by simp)
          simpa using this
        simp [h0, levelCandidates_eq ikey lf hm]
    set cand := (if level = 0 then specLevel0Candidates ikey.ukey lf
        else specLevelCandidates ikey lf) with hcdef
    have himpl : getLoop tget ikey (lf :: rest) level st =
        match probeFiles tget level cand st with
        | (some s, st') => (s, st')
        | (none, st') => getLoop tget ikey rest (level + 1) st' := by
      rw [getLoop, hcand]
    obtain ⟨hs, hcons⟩ := probeFiles_run tget level cand st
    have hspecCand : specCandidatesFrom ikey (lf :: rest) level =
        cand.map (fun f => (level, f)) ++
          specCandidatesFrom ikey rest (level + 1) := by
      rw [specCandidatesFrom, hcdef]
    have hpredmap : ∀ (l : List FMeta),
        (l.map (fun f => ((level, f) : Nat × FMeta))).find?
            (fun c => decisive (tget c.2.number)) =
          (l.find? (fun f => decisive (tget f.number))).map
            (fun f => (level, f)) := by
      intro l
      rw [List.find?_map]
      rfl
    rcases hpf : probeFiles tget level cand st with ⟨o, st'⟩
    rw [hpf] at hs hcons
    cases o with
    | some s =>
      rw [himpl, hpf]
      simp only at hs hcons
      cases hfind : cand.find? (fun f => decisive (tget f.number)) with
      | none => rw [hfind] at hs; cases hs
      | some f =>
        rw [hfind] at hs
        have hsval : s = probeOutcome (tget f.number) := by
          simpa using hs
        have hidx : cand.findIdx (fun f => decisive (tget f.number)) <
            cand.length := findIdx_lt_of_find?_some hfind
        constructor
        · rw [hspecCand]
          unfold specGetStatus
          rw [List.find?_append, hpredmap cand, hfind]
          simpa using hsval
        · rw [hspecCand]
          unfold specConsulted
          rw [findIdx_append_of_lt _ _ _
              (by rw [findIdx_map]; simpa using hidx),
            findIdx_map,
            List.take_append_of_le_length
              (by simp only [List.length_map]; omega : cand.findIdx
                (fun c => decisive (tget c.number)) + 1 ≤
                (cand.map (fun f => ((level, f) : Nat × FMeta))).length),
            ← List.map_take]
          simpa using hcons
    | none =>
      rw [himpl, hpf]
      simp only at hs hcons
      have hfind : cand.find? (fun f => decisive (tget f.number)) = none := by
        cases hfind : cand.find? (fun f => decisive (tget f.number)) with
        | none => rfl
        | some f => rw [hfind] at hs; cases hs
      have hall : ∀ x ∈ cand, decisive (tget x.number) = false := by
        intro x hx
        have := List.find?_eq_none.mp hfind x hx
        simpa using this
      have hlen : cand.findIdx (fun f => decisive (tget f.number)) =
          cand.length := List.findIdx_eq_length.mpr hall
      have hrec := ih (level + 1) st'
        (fun i hi hilen => by
          have := hmono (i + 1) (by omega) (by simpa using Nat.succ_lt_succ hilen)
          simpa using this)
      constructor
      · rw [hrec.1, hspecCand]
        unfold specGetStatus
        rw [List.find?_append, hpredmap cand, hfind]
        rfl
      · rw [hrec.2, hspecCand]
        unfold specConsulted
        rw [findIdx_append_of_none _ _ _
            (fun x hx => by
              rcases List.mem_map.mp hx with ⟨g, hg, rfl⟩
              exact hall g hg)]
        have harith : (cand.map (fun f => ((level, f) : Nat × FMeta))).length +
            ((specCandidatesFrom ikey rest (level + 1)).findIdx
              (fun c => decisive (tget c.2.number)) + 1) =
            (cand.map (fun f => ((level, f) : Nat × FMeta))).length +
            (specCandidatesFrom ikey rest (level + 1)).findIdx
              (fun c => decisive (tget c.2.number)) + 1 := by omega
        rw [← harith, List.take_append]
        rw [hcons]
        have hfull : cand.take (cand.findIdx
            (fun f => decisive (tget f.number)) + 1) = cand := by
          rw [hlen]
          exact List.take_of_length_le (by omega)
        rw [hfull, List.append_assoc]

/-- **C1**: `Version::Get` searches levels in increasing order; at level 0
it consults exactly the files whose user-key range contains the lookup user
key, newest (highest file number) first; at each level ≥ 1 it consults at
most the single file found by binary search — the first file whose largest
key is ≥ the internal key — skipping it when the user key is below its
smallest user key; it returns the value on the first `Found`, NotFound on
the first `Deleted`, Corruption on a corrupt key, an error status if a table
read fails, and NotFound only once every level is exhausted.  Stated as:
the result and the consulted-file trace equal the spec-side description
(`specCandidates`/`specGetStatus`/`specConsulted`), assuming the
level-ordering invariant (monotone largest keys) on levels ≥ 1. -/
theorem version_get_spec (v : Version) (tget : Nat → TProbe) (ikey : IKey)
    (hmono : ∀ i, 1 ≤ i → i < v.files.length →
      largestMono (v.files.getD i [])) :
    (v.get tget ikey).1 = specGetStatus tget (specCandidates v ikey) ∧
    (v.get tget ikey).2.consulted =
      specConsulted tget (specCandidates v ikey) := by
  have := getLoop_spec tget ikey v.files 0 ⟨⟨none, -1⟩, none, -1, []⟩
    (fun i hi hilen => hmono i (by omega) hilen)
  unfold Version.get specCandidates
  exact ⟨this.1, by rw [this.2]; simp⟩

/-- Concrete version for the `version_get_spec` witness: two overlapping
level-0 files, the newer one (number 2) not holding the key. -/
def c1V : Version :=
  ⟨[[⟨1, 10, ⟨5, 3, 1⟩, ⟨6, 2, 1⟩, 0⟩, ⟨2, 10, ⟨4, 9, 1⟩, ⟨7, 8, 1⟩, 0⟩]],
    none, -1, -1, -1⟩

/-- Concrete table-probe oracle for the `version_get_spec` witness. -/
def c1Tget : Nat → TProbe := fun n => if n = 2 then .notFound else .found 42

/-- Concrete lookup key for the `version_get_spec` witness. -/
def c1Key : IKey := ⟨5, 100, 1⟩

theorem version_get_spec_witness :
    (∀ i, 1 ≤ i → i < c1V.files.length → largestMono (c1V.files.getD i [])) ∧
    ((c1V.get c1Tget c1Key).1 = specGetStatus c1Tget (specCandidates c1V c1Key) ∧
     (c1V.get c1Tget c1Key).2.consulted =
       specConsulted c1Tget (specCandidates c1V c1Key)) ∧
    (c1V.get c1Tget c1Key).1 = .ok 42 := by
  have hmono : ∀ i, 1 ≤ i → i < c1V.files.length →
      largestMono (c1V.files.getD i []) := by
    intro i h1 h2
    simp only [c1V, List.length_singleton] at h2
    omega
  exact ⟨hmono, version_get_spec c1V c1Tget c1Key hmono, by decide⟩

/-! ### Seek-compaction accounting (`Version::Get` statistics and
`Version::UpdateStats`) -/

/-- Relation between the loop state's statistics fields and its
consulted-file trace: no statistic before a second file is read; from the
second file on, the statistic names the first consulted file and its
level. -/
def statsInv (st : GetIter) : Prop :=
  (st.consulted = [] → st.lastFileRead = none ∧ st.stats.seekFile = none) ∧
  (∀ c, st.consulted = [c] → st.lastFileRead = some c.2 ∧
    st.lastFileReadLevel = (c.1 : Int) ∧ st.stats.seekFile = none) ∧
  (∀ c d rest, st.consulted = c :: d :: rest →
    st.lastFileRead.isSome = true ∧ st.stats.seekFile = some c.2 ∧
    st.stats.seekFileLevel = (c.1 : Int))

theorem statsInv_step :
    ∀ (st : GetIter), statsInv st → ∀ (level : Nat) (f : FMeta),
    statsInv
      { (if st.lastFileRead.isSome ∧ st.stats.seekFile = none then
          { st with stats := ⟨st.lastFileRead, st.lastFileReadLevel⟩ }
        else st) with
        lastFileRead := some f,
        lastFileReadLevel := (level : Int),
        consulted :=
          (if st.lastFileRead.isSome ∧ st.stats.seekFile = none then
            { st with stats := ⟨st.lastFileRead, st.lastFileReadLevel⟩ }
          else st).consulted ++ [(level, f)] } := by
  rintro ⟨⟨sf, sfl⟩, lfr, lfrl, consl⟩ ⟨h0, h1, h2⟩ level f
  rcases consl with _ | ⟨c, _ | ⟨d, r⟩⟩
  · obtain ⟨hl, hs⟩ := h0 rfl
    dsimp only at hl hs ⊢
    subst hl; subst hs
    simp [statsInv]
  · obtain ⟨hl, hlv, hs⟩ := h1 c rfl
    dsimp only at hl hlv hs ⊢
    subst hl; subst hlv; subst hs
    simp [statsInv]
    rintro a b a1 b1 rest rfl rfl rfl rfl
    exact ⟨rfl, rfl⟩
  · obtain ⟨hl, hs, hsl⟩ := h2 c d r rfl
    dsimp only at hl hs hsl ⊢
    subst hs; subst hsl
    simp [statsInv, hl]

theorem probeFiles_statsInv (tget : Nat → TProbe) (level : Nat) :
    ∀ (cand : List FMeta) (st : GetIter), statsInv st →
      statsInv (probeFiles tget level cand st).2 := by
  intro cand
  induction cand with
  | nil => intro st h; simpa [probeFiles] using h
  | cons f rest ih =>
    intro st h
    rw [probeFiles]
    cases tget f.number
    · exact statsInv_step st h level f
    · exact ih _ (statsInv_step st h level f)
    · exact statsInv_step st h level f
    · exact statsInv_step st h level f
    · exact statsInv_step st h level f

theorem getLoop_statsInv (tget : Nat → TProbe) (ikey : IKey) :
    ∀ (lvls : List (List FMeta)) (level : Nat) (st : GetIter), statsInv st →
      statsInv (getLoop tget ikey lvls level st).2 := by
  intro lvls
  induction lvls with
  | nil => intro level st h; simpa [getLoop] using h
  | cons lf rest ih =>
    intro level st h
    rw [getLoop]
    have hp := probeFiles_statsInv tget level
      (if level = 0 then level0Candidates ikey.ukey lf
       else levelCandidates ikey lf) st h
    rcases hpf : probeFiles tget level
        (if level = 0 then level0Candidates ikey.ukey lf
         else levelCandidates ikey lf) st with ⟨o, st'⟩
    rw [hpf] at hp
    cases o with
    | some s => exact hp
    | none => exact ih (level + 1) st' hp

/-- `file_to_compact_` / `file_to_compact_level_` of a version, the state
read and written by `Version::UpdateStats`. -/
structure SeekState where
  fileToCompact : Option FMeta
  fileToCompactLevel : Int
  deriving Repr, DecidableEq

/-- `Version::UpdateStats` (`db/version_set.cc`): decrement the recorded
file's `allowed_seeks`; when it drops to ≤ 0 and no file is queued yet,
queue this file and its level and report that a compaction may be needed.
The first component is the recorded file after the in-place decrement. -/
def updateStats (vs : SeekState) (stats : GetStats) :
    Option FMeta × SeekState × Bool :=
  match stats.seekFile with
  | none => (none, vs, false)
  | some f =>
    let f' := { f with allowedSeeks := f.allowedSeeks - 1 }
    if f'.allowedSeeks ≤ 0 ∧ vs.fileToCompact = none then
      (some f', ⟨some f', stats.seekFileLevel⟩, true)
    else
      (some f', vs, false)

/-- **C8**: a Get records as its seek statistic the first file it consulted
only when it consulted more than one file; `UpdateStats` then decrements
that file's `allowed_seeks`, and when the counter reaches zero with no file
already queued it marks that file and its level as the seek-compaction
target and reports that a compaction may be needed. -/
theorem seek_stats_spec (v : Version) (tget : Nat → TProbe) (ikey : IKey) :
    ((∀ c, (v.get tget ikey).2.consulted = [c] →
        (v.get tget ikey).2.stats.seekFile = none) ∧
     ((v.get tget ikey).2.consulted = [] →
        (v.get tget ikey).2.stats.seekFile = none) ∧
     (∀ c d rest, (v.get tget ikey).2.consulted = c :: d :: rest →
        (v.get tget ikey).2.stats.seekFile = some c.2 ∧
        (v.get tget ikey).2.stats.seekFileLevel = (c.1 : Int))) ∧
    (∀ (vs : SeekState) (stats : GetStats) (f : FMeta),
      stats.seekFile = some f →
      (updateStats vs stats).1 =
          some { f with allowedSeeks := f.allowedSeeks - 1 } ∧
      (f.allowedSeeks - 1 ≤ 0 ∧ vs.fileToCompact = none →
        (updateStats vs stats).2.1 =
          ⟨some { f with allowedSeeks := f.allowedSeeks - 1 },
            stats.seekFileLevel⟩ ∧
        (updateStats vs stats).2.2 = true) ∧
      (¬ (f.allowedSeeks - 1 ≤ 0 ∧ vs.fileToCompact = none) →
        (updateStats vs stats).2.1 = vs ∧
        (updateStats vs stats).2.2 = false)) ∧
    (∀ (vs : SeekState) (stats : GetStats), stats.seekFile = none →
      updateStats vs stats = (none, vs, false)) := by
  refine ⟨?_, ?_, ?_⟩
  · have hinit : statsInv ⟨⟨none, -1⟩, none, -1, []⟩ := by
      refine ⟨fun _ => ⟨rfl, rfl⟩, ?_, ?_⟩
      · intro c hc
        cases hc
      · intro c d rest hc
        cases hc
    have hinv : statsInv (v.get tget ikey).2 :=
      getLoop_statsInv tget ikey v.files 0 _ hinit
    obtain ⟨h0, h1, h2⟩ := hinv
    exact ⟨fun c hc => (h1 c hc).2.2, fun hc => (h0 hc).2,
      fun c d rest hc => ⟨(h2 c d rest hc).2.1, (h2 c d rest hc).2.2⟩⟩
  · intro vs stats f hf
    unfold updateStats
    rw [hf]
    dsimp only
    by_cases hcond : (f.allowedSeeks - 1 ≤ 0 ∧ vs.fileToCompact = none)
    · rw [if_pos hcond]
      exact ⟨rfl, fun _ => ⟨rfl, rfl⟩, fun hn => absurd hcond hn⟩
    · rw [if_neg hcond]
      exact ⟨rfl, fun hc => absurd hc hcond, fun _ => ⟨rfl, rfl⟩⟩
  · intro vs stats hnone
    unfold updateStats
    rw [hnone]

/-- The older of the two concrete level-0 files (`c1V`). -/
def c1FA : FMeta := ⟨1, 10, ⟨5, 3, 1⟩, ⟨6, 2, 1⟩, 0⟩

/-- The newer of the two concrete level-0 files (`c1V`). -/
def c1FB : FMeta := ⟨2, 10, ⟨4, 9, 1⟩, ⟨7, 8, 1⟩, 0⟩

theorem seek_stats_spec_witness :
    (c1V.get c1Tget c1Key).2.consulted = [(0, c1FB), (0, c1FA)] ∧
    (c1V.get c1Tget c1Key).2.stats.seekFile = some c1FB ∧
    (updateStats ⟨none, -1⟩ ⟨some c1FB, 0⟩).2.2 = true := by
  have h := seek_stats_spec c1V c1Tget c1Key
  refine ⟨by decide, ?_, ?_⟩
  · exact (h.1.2.2 (0, c1FB) (0, c1FA) [] (by decide)).1
  · have hu := h.2.1 ⟨none, -1⟩ ⟨some c1FB, 0⟩ c1FB rfl
    exact (hu.2.1 ⟨by decide, rfl⟩).2

/-! ### `VersionSet::Builder`: `Apply` and `SaveTo` -/

/-- `VersionSet::Builder::BySmallestKey::operator()`: order file metadata by
smallest internal key, ties broken by file number. -/
def bySmallestLt (f1 f2 : FMeta) : Prop :=
  if icmpCompare f1.smallest f2.smallest = 0 then f1.number < f2.number
  else icmpCompare f1.smallest f2.smallest < 0

instance (f1 f2 : FMeta) : Decidable (bySmallestLt f1 f2) :=
  inferInstanceAs (Decidable (if icmpCompare f1.smallest f2.smallest = 0
    then f1.number < f2.number else icmpCompare f1.smallest f2.smallest < 0))

/-- Arithmetic characterisation of `bySmallestLt`. -/
theorem bySmallestLt_iff {f1 f2 : FMeta} :
    bySmallestLt f1 f2 ↔
      (ikeyLt f1.smallest f2.smallest ∨
        (f1.smallest.ukey = f2.smallest.ukey ∧
          f1.smallest.trailer = f2.smallest.trailer ∧
          f1.number < f2.number)) := by
  unfold bySmallestLt
  split_ifs with h
  · rw [icmpCompare_eq_zero] at h
    constructor
    · intro hn
      exact Or.inr ⟨h.1, h.2, hn⟩
    · rintro (hlt | ⟨_, _, hn⟩)
      · unfold ikeyLt at hlt; omega
      · exact hn
  · rw [icmpCompare_eq_zero] at h
    rw [icmpCompare_neg]
    constructor
    · exact Or.inl
    · rintro (hlt | ⟨h1, h2, _⟩)
      · exact hlt
      · exact absurd ⟨h1, h2⟩ h

theorem bySmallestLt_trans {a b c : FMeta} (h1 : bySmallestLt a b)
    (h2 : bySmallestLt b c) : bySmallestLt a c := by
  rw [bySmallestLt_iff] at *
  unfold ikeyLt at *
  omega

theorem bySmallestLt_trichotomy (a b : FMeta) :
    bySmallestLt a b ∨ bySmallestLt b a ∨
      (a.smallest.ukey = b.smallest.ukey ∧
        a.smallest.trailer = b.smallest.trailer ∧ a.number = b.number) := by
  rw [bySmallestLt_iff, bySmallestLt_iff]
  unfold ikeyLt
  omega

/-- The non-strict order associated with `BySmallestKey` (what a list sorted
with `std::set` / `std::upper_bound` satisfies). -/
def bySmallestLe (a b : FMeta) : Prop := ¬ bySmallestLt b a

theorem bySmallestLe_trans {a b c : FMeta} (h1 : bySmallestLe a b)
    (h2 : bySmallestLe b c) : bySmallestLe a c := by
  unfold bySmallestLe at *
  rw [bySmallestLt_iff] at *
  unfold ikeyLt at *
  omega

theorem bySmallestLt_le {a b : FMeta} (h : bySmallestLt a b) :
    bySmallestLe a b := by
  unfold bySmallestLe
  rw [bySmallestLt_iff] at *
  unfold ikeyLt at *
  omega

theorem bySmallestLt_of_lt_of_le {a b c : FMeta} (h1 : bySmallestLt a b)
    (h2 : bySmallestLe b c) : bySmallestLt a c := by
  unfold bySmallestLe at h2
  rw [bySmallestLt_iff] at *
  unfold ikeyLt at *
  omega

theorem bySmallestLt_of_le_of_lt {a b c : FMeta} (h1 : bySmallestLe a b)
    (h2 : bySmallestLt b c) : bySmallestLt a c := by
  unfold bySmallestLe at h1
  rw [bySmallestLt_iff] at *
  unfold ikeyLt at *
  omega

/-- Insertion into the `FileSet` (`std::set<FileMetaData*, BySmallestKey>`):
keep the list sorted by `BySmallestKey`; an equivalent element (neither
smaller nor greater) is not inserted again. -/
def fsetInsert (f : FMeta) : List FMeta → List FMeta
  | [] => [f]
  | g :: rest =>
    if bySmallestLt f g then f :: g :: rest
    else if bySmallestLt g f then g :: fsetInsert f rest
    else g :: rest

/-- `VersionEdit` (`db/version_edit.h`): the optional scalar fields and the
per-level compaction pointers, deletions and additions. -/
structure VersionEdit where
  comparator : Option Nat := none
  logNumber : Option Nat := none
  prevLogNumber : Option Nat := none
  nextFileNumber : Option Nat := none
  lastSequence : Option Nat := none
  compactPointers : List (Nat × IKey) := []
  deletedFiles : List (Nat × Nat) := []
  newFiles : List (Nat × FMeta) := []
  deriving Repr, DecidableEq

/-- `VersionSet::Builder::LevelState`: file numbers to delete and the sorted
set of files to add at one level. -/
structure LevelState where
  deleted : List Nat := []
  added : List FMeta := []
  deriving Repr, DecidableEq

instance : Inhabited LevelState := ⟨⟨[], []⟩⟩

/-- The builder state: the per-level edit accumulator together with the
`compact_pointer_` array of the owning `VersionSet` (which
`Builder::Apply` writes directly). -/
structure Builder where
  compactPointer : List (Option IKey)
  levels : List LevelState
  deriving Repr, DecidableEq

/-- A fresh builder (`VersionSet::Builder::Builder` plus untouched
compaction pointers). -/
def emptyBuilder : Builder :=
  ⟨List.replicate kNumLevels none, List.replicate kNumLevels default⟩

/-- Apply `g` to the level-state at index `i`. -/
def updateLevel (ls : List LevelState) (i : Nat) (g : LevelState → LevelState) :
    List LevelState :=
  ls.set i (g (ls.getD i default))

/-- The `allowed_seeks` initialisation in `Builder::Apply`:
`file_size / 16384`, at least 100. -/
def initAllowedSeeks (f : FMeta) : FMeta :=
  let asks : Int := (f.fileSize / 16384 : Nat)
  { f with allowedSeeks := if asks < 100 then 100 else asks }

/-- `VersionSet::Builder::Apply` (`db/version_set.cc`): record compaction
pointers into the version set, record deletions, and insert additions (with
initialised `allowed_seeks`), un-deleting any re-added file number. -/
def builderApply (ed : VersionEdit) (b : Builder) : Builder :=
  let cp := ed.compactPointers.foldl
    (fun cp p => cp.set p.1 (some p.2)) b.compactPointer
  let lvls1 := ed.deletedFiles.foldl
    (fun ls p => updateLevel ls p.1
      (fun l => { l with deleted := p.2 :: l.deleted })) b.levels
  let lvls2 := ed.newFiles.foldl
    (fun ls p =>
      let f := initAllowedSeeks p.2
      updateLevel ls p.1
        (fun l => { deleted := l.deleted.filter (fun n => n ≠ f.number),
                    added := fsetInsert f l.added })) lvls1
  ⟨cp, lvls2⟩

/-- The merge of `SaveTo`: for each added file, first emit the base files
not greater than it (`std::upper_bound` against `BySmallestKey`), then the
added file; finally emit the remaining base files. -/
def mergeBySmallest : List FMeta → List FMeta → List FMeta
  | base, [] => base
  | base, a :: as =>
    base.takeWhile (fun b => ¬ bySmallestLt a b) ++
      a :: mergeBySmallest (base.dropWhile (fun b => ¬ bySmallestLt a b)) as

/-- One level of `SaveTo`: merge base and added files in sorted order,
`MaybeAddFile` dropping every file recorded as deleted. -/
def saveToLevel (deleted : List Nat) (base added : List FMeta) :
    List FMeta :=
  (mergeBySmallest base added).filter (fun f => decide (f.number ∉ deleted))

/-- `VersionSet::Builder::SaveTo`: build every level of the new version. -/
def saveTo (b : Builder) (base : List (List FMeta)) : List (List FMeta) :=
  (List.range kNumLevels).map (fun lvl =>
    saveToLevel (b.levels.getD lvl default).deleted
      (base.getD lvl []) (b.levels.getD lvl default).added)

/-- The builder accumulated from a list of edits (one edit for
`LogAndApply`, the whole manifest for `Recover`). -/
def buildFrom (eds : List VersionEdit) (b : Builder) : Builder :=
  eds.foldl (fun b e => builderApply e b) b

/-- The level-ordering invariant of the spec for one level: files sorted by
smallest internal key and pairwise key-disjoint (in list order: each file
ends strictly before the next begins). -/
def levelInvariant (files : List FMeta) : Prop :=
  files.Pairwise (fun a b =>
    ikeyLt a.smallest b.smallest ∧ ikeyLt a.largest b.smallest)

/-- The `NDEBUG` consistency check of `SaveTo` / the assertion of
`MaybeAddFile`: each file's largest key is strictly below the next file's
smallest key. -/
def chainDisjoint (files : List FMeta) : Prop :=
  files.Chain' (fun a b => icmpCompare a.largest b.smallest < 0)

/-- Versions reachable from the empty initial version by `Builder` steps
(`LogAndApply` applies one edit per step; `Recover` applies a whole list of
edits in one builder). -/
inductive reachableFiles : List (List FMeta) → Prop
  | init : reachableFiles (List.replicate kNumLevels [])
  | step (cur : List (List FMeta)) (eds : List VersionEdit)
      (hr : reachableFiles cur) :
      reachableFiles (saveTo (buildFrom eds emptyBuilder) cur)

theorem fsetInsert_mem {f x : FMeta} :
    ∀ {l : List FMeta}, x ∈ fsetInsert f l → x = f ∨ x ∈ l := by
  intro l
  induction l with
  | nil => intro h; simpa [fsetInsert] using h
  | cons g rest ih =>
    intro h
    rw [fsetInsert] at h
    split_ifs at h
    · rcases List.mem_cons.mp h with rfl | hm
      · exact Or.inl rfl
      · exact Or.inr hm
    · rcases List.mem_cons.mp h with rfl | hm
      · exact Or.inr (List.mem_cons_self _ _)
      · rcases ih hm with rfl | hm2
        · exact Or.inl rfl
        · exact Or.inr (List.mem_cons_of_mem _ hm2)
    · exact Or.inr h

theorem fsetInsert_sorted (f : FMeta) :
    ∀ (l : List FMeta), l.Pairwise bySmallestLt →
      (fsetInsert f l).Pairwise bySmallestLt := by
  intro l
  induction l with
  | nil => intro _; simp [fsetInsert]
  | cons g rest ih =>
    intro hp
    rcases List.pairwise_cons.mp hp with ⟨hg, hrest⟩
    rw [fsetInsert]
    split_ifs with h1 h2
    · exact List.pairwise_cons.mpr ⟨by
        intro x hx
        rcases List.mem_cons.mp hx with rfl | hm
        · exact h1
        · exact bySmallestLt_trans h1 (hg x hm), hp⟩
    · refine List.pairwise_cons.mpr ⟨?_, ih hrest⟩
      intro x hx
      rcases fsetInsert_mem hx with rfl | hm
      · exact h2
      · exact hg x hm
    · exact hp

theorem mergeBySmallest_mem {x : FMeta} :
    ∀ (added base : List FMeta), x ∈ mergeBySmallest base added →
      x ∈ base ∨ x ∈ added := by
  intro added
  induction added with
  | nil => intro base h; exact Or.inl (by simpa [mergeBySmallest] using h)
  | cons a as ih =>
    intro base h
    rw [mergeBySmallest] at h
    rcases List.mem_append.mp h with hm | hm
    · exact Or.inl ((List.takeWhile_sublist _).subset hm)
    · rcases List.mem_cons.mp hm with rfl | hm2
      · exact Or.inr (List.mem_cons_self _ _)
      · rcases ih _ hm2 with hb | ha
        · exact Or.inl ((List.dropWhile_sublist _).subset hb)
        · exact Or.inr (List.mem_cons_of_mem _ ha)

theorem dropWhile_all_lt (a : FMeta) :
    ∀ (base : List FMeta), base.Pairwise bySmallestLe →
      ∀ d ∈ base.dropWhile (fun b => ¬ bySmallestLt a b), bySmallestLt a d := by
  intro base
  induction base with
  | nil => intro _ d hd; simp at hd
  | cons b rest ih =>
    intro hp d hd
    rcases List.pairwise_cons.mp hp with ⟨hb, hrest⟩
    by_cases hpred : bySmallestLt a b
    · rw [List.dropWhile_cons_of_neg (by simpa using hpred)] at hd
      rcases List.mem_cons.mp hd with rfl | hm
      · exact hpred
      · exact bySmallestLt_of_lt_of_le hpred (hb d hm)
    · rw [List.dropWhile_cons_of_pos (by simpa using hpred)] at hd
      exact ih hrest d hd

theorem takeWhile_all_le (a : FMeta) (base : List FMeta) :
    ∀ t ∈ base.takeWhile (fun b => ¬ bySmallestLt a b), bySmallestLe t a := by
  intro t ht
  have := List.mem_takeWhile_imp ht
  simpa [bySmallestLe] using this

/-- The `SaveTo` merge of a sorted base and a sorted added set is sorted. -/
theorem mergeBySmallest_sorted :
    ∀ (added base : List FMeta), base.Pairwise bySmallestLe →
      added.Pairwise bySmallestLt →
      (mergeBySmallest base added).Pairwise bySmallestLe := by
  intro added
  induction added with
  | nil => intro base hb _; simpa [mergeBySmallest] using hb
  | cons a as ih =>
    intro base hb ha
    rcases List.pairwise_cons.mp ha with ⟨haas, has⟩
    rw [mergeBySmallest]
    have hsplit : base = base.takeWhile (fun b => ¬ bySmallestLt a b) ++
        base.dropWhile (fun b => ¬ bySmallestLt a b) :=
      (List.takeWhile_append_dropWhile _ _).symm
    have htake : (base.takeWhile (fun b => ¬ bySmallestLt a b)).Pairwise
        bySmallestLe :=
      hb.sublist (List.takeWhile_sublist _)
    have hdrop : (base.dropWhile (fun b => ¬ bySmallestLt a b)).Pairwise
        bySmallestLe :=
      hb.sublist (List.dropWhile_sublist _)
    have hdlt := dropWhile_all_lt a base hb
    apply List.pairwise_append.mpr
    refine ⟨htake, ?_, ?_⟩
    · apply List.pairwise_cons.mpr
      refine ⟨?_, ih _ hdrop has⟩
      intro x hx
      rcases mergeBySmallest_mem _ _ hx with hxd | hxa
      · exact bySmallestLt_le (hdlt x hxd)
      · exact bySmallestLt_le (haas x hxa)
    · intro t ht y hy
      have hta : bySmallestLe t a := takeWhile_all_le a base t ht
      rcases List.mem_cons.mp hy with rfl | hm
      · exact hta
      · rcases mergeBySmallest_mem _ _ hm with hxd | hxa
        · exact bySmallestLe_trans hta (bySmallestLt_le (hdlt y hxd))
        · exact bySmallestLe_trans hta (bySmallestLt_le (haas y hxa))

/-- Every level-state of a builder accumulated from arbitrary edits keeps
its added set sorted. -/
theorem buildFrom_added_sorted :
    ∀ (eds : List VersionEdit) (b : Builder),
      (∀ ls ∈ b.levels, ls.added.Pairwise bySmallestLt) →
      ∀ ls ∈ (buildFrom eds b).levels, ls.added.Pairwise bySmallestLt := by
  have hupdate : ∀ (ls : List LevelState) (i : Nat) (g : LevelState → LevelState),
      (∀ l ∈ ls, l.added.Pairwise bySmallestLt) →
      (∀ l, l.added.Pairwise bySmallestLt → (g l).added.Pairwise bySmallestLt) →
      ∀ l ∈ updateLevel ls i g, l.added.Pairwise bySmallestLt := by
    intro ls i g hall hg l hl
    rcases List.mem_or_eq_of_mem_set hl with hm | rfl
    · exact hall l hm
    · apply hg
      rcases Nat.lt_or_ge i ls.length with hi | hi
      · exact hall _ (by
          rw [List.getD_eq_getElem ls default hi]
          exact List.getElem_mem _)
      · rw [List.getD_eq_default _ _ hi]
        exact List.Pairwise.nil
  have happly : ∀ (e : VersionEdit) (b : Builder),
      (∀ ls ∈ b.levels, ls.added.Pairwise bySmallestLt) →
      ∀ ls ∈ (builderApply e b).levels, ls.added.Pairwise bySmallestLt := by
    intro e b hall
    unfold builderApply
    dsimp only
    have h1 : ∀ ls ∈ e.deletedFiles.foldl
        (fun ls p => updateLevel ls p.1
          (fun l => { l with deleted := p.2 :: l.deleted })) b.levels,
        ls.added.Pairwise bySmallestLt := by
      generalize b.levels = lvls0 at hall ⊢
      induction e.deletedFiles generalizing lvls0 with
      | nil => simpa using hall
      | cons p ps ih =>
        intro ls hls
        rw [List.foldl_cons] at hls
        exact ih _ (hupdate lvls0 p.1
          (fun l => { l with deleted := p.2 :: l.deleted }) hall
          (fun l hl => hl)) ls hls
    generalize hdf : e.deletedFiles.foldl
        (fun ls p => updateLevel ls p.1
          (fun l => { l with deleted := p.2 :: l.deleted })) b.levels = lvls1
    rw [hdf] at h1
    clear hdf hall
    induction e.newFiles generalizing lvls1 with
    | nil => simpa using h1
    | cons p ps ih =>
      intro ls hls
      rw [List.foldl_cons] at hls
      refine ih _ ?_ ls hls
      exact hupdate _ _
        (fun l => { deleted := List.filter (fun n => n ≠ (initAllowedSeeks p.2).number) l.deleted, added := fsetInsert (initAllowedSeeks p.2) l.added }) h1
        (fun l hl => fsetInsert_sorted _ _ hl)
  intro eds
  induction eds with
  | nil => intro b h; simpa [buildFrom] using h
  | cons e es ih =>
    intro b h
    have : buildFrom (e :: es) b = buildFrom es (builderApply e b) := by
      simp [buildFrom]
    rw [this]
    exact ih _ (happly e b h)

theorem range_map_getD {α : Type} (n : Nat) (g : Nat → α) (d : α) (i : Nat)
    (hi : i < n) : (((List.range n).map g).getD i d) = g i := by
  rw [List.getD_eq_getElem _ _ (by simpa using hi)]
  simp

/-- Every level of every reachable version is sorted in the
`BySmallestKey` order. -/
theorem reachable_sorted :
    ∀ (v : List (List FMeta)), reachableFiles v →
      ∀ lvl, (v.getD lvl []).Pairwise bySmallestLe := by
  intro v hr
  induction hr with
  | init =>
    intro lvl
    rcases Nat.lt_or_ge lvl kNumLevels with hi | hi
    · rw [List.getD_eq_getElem _ _ (by simpa using hi)]
      simp
    · rw [List.getD_eq_default _ _ (by simpa using hi)]
      simp
  | step cur eds hr ih =>
    intro lvl
    have hempty : ∀ ls ∈ emptyBuilder.levels, ls.added.Pairwise bySmallestLt := by
      intro ls hls
      unfold emptyBuilder at hls
      have := List.eq_of_mem_replicate hls
      rw [this]
      exact List.Pairwise.nil
    have hadd : ((buildFrom eds emptyBuilder).levels.getD lvl
        default).added.Pairwise bySmallestLt := by
      rcases Nat.lt_or_ge lvl (buildFrom eds emptyBuilder).levels.length
        with hl | hl
      · exact buildFrom_added_sorted eds emptyBuilder hempty _
          (by rw [List.getD_eq_getElem _ _ hl]; exact List.getElem_mem _)
      · rw [List.getD_eq_default _ _ hl]
        exact List.Pairwise.nil
    rcases Nat.lt_or_ge lvl kNumLevels with hi | hi
    · unfold saveTo
      rw [range_map_getD kNumLevels _ [] lvl hi]
      unfold saveToLevel
      apply List.Pairwise.sublist (List.filter_sublist _)
      exact mergeBySmallest_sorted _ _ (ih lvl) hadd
    · unfold saveTo
      rw [List.getD_eq_default _ _ (by simpa using hi)]
      simp

instance (files : List FMeta) : Decidable (chainDisjoint files) :=
  inferInstanceAs (Decidable (files.Chain'
    (fun (a b : FMeta) => icmpCompare a.largest b.smallest < 0)))

instance (files : List FMeta) : Decidable (levelInvariant files) :=
  inferInstanceAs (Decidable (files.Pairwise (fun (a b : FMeta) =>
    ikeyLt a.smallest b.smallest ∧ ikeyLt a.largest b.smallest)))

/-- A consecutive-disjointness check (the `SaveTo` assertion) implies the
full pairwise invariant, for well-formed file metadata. -/
theorem chainDisjoint_levelInvariant :
    ∀ (files : List FMeta), (∀ f ∈ files, f.wf) → chainDisjoint files →
      levelInvariant files := by
  intro files
  induction files with
  | nil => intro _ _; exact List.Pairwise.nil
  | cons f rest ih =>
    intro hwf hchain
    rcases rest with _ | ⟨g, rest'⟩
    · unfold levelInvariant
      simp
    · have hch := List.chain'_cons.mp hchain
      have hinv := ih (fun x hx => hwf x (List.mem_cons_of_mem _ hx)) hch.2
      apply List.pairwise_cons.mpr
      refine ⟨?_, hinv⟩
      intro x hx
      have hfg : ikeyLt f.largest g.smallest := icmpCompare_neg.mp hch.1
      have hfwf : ¬ ikeyLt f.largest f.smallest := by
        have := hwf f (List.mem_cons_self _ _)
        unfold FMeta.wf at this
        intro hc
        have := icmpCompare_pos.mpr hc
        omega
      rcases List.mem_cons.mp hx with rfl | hm
      · exact ⟨ikeyLe_lt_trans hfwf hfg, hfg⟩
      · have hgx := (List.pairwise_cons.mp hinv).1 x hm
        have h1 : ikeyLt f.largest x.smallest := ikeyLt_trans hfg hgx.1
        exact ⟨ikeyLe_lt_trans hfwf h1, h1⟩

theorem bySmallestLe_cmp {a b : FMeta} (h : bySmallestLe a b) :
    icmpCompare a.smallest b.smallest ≤ 0 := by
  have hnl : ¬ ikeyLt b.smallest a.smallest := by
    unfold bySmallestLe at h
    rw [bySmallestLt_iff] at h
    intro hc
    exact h (Or.inl hc)
  by_contra hc
  push_neg at hc
  exact hnl (icmpCompare_pos.mp hc)

/-- **C2**: every version reachable from the empty initial version through
`Builder::Apply` + `SaveTo` steps (one edit per `LogAndApply` step, a whole
manifest for `Recover`) has each level ≥ 1 sorted by smallest internal key;
and whenever the consistency check that `SaveTo`/`MaybeAddFile` assert on
the built level holds (consecutive files strictly disjoint — the code aborts
otherwise), the level satisfies the full level-ordering invariant: sorted by
smallest key and pairwise key-disjoint. -/
theorem builder_saveTo_level_ordering :
    (∀ v, reachableFiles v → ∀ lvl, 1 ≤ lvl →
      (v.getD lvl []).Pairwise
        (fun a b => icmpCompare a.smallest b.smallest ≤ 0)) ∧
    (∀ files : List FMeta, (∀ f ∈ files, f.wf) → chainDisjoint files →
      levelInvariant files) := by
  constructor
  · intro v hr lvl _
    exact (reachable_sorted v hr lvl).imp (fun h => bySmallestLe_cmp h)
  · exact chainDisjoint_levelInvariant

/-- Edit adding two (out-of-order) files at level 1, for the C2 witness. -/
def c2Edit : VersionEdit :=
  { newFiles := [(1, ⟨7, 100, ⟨20, 5, 1⟩, ⟨30, 4, 1⟩, 0⟩),
                 (1, ⟨6, 100, ⟨0, 9, 1⟩, ⟨10, 8, 1⟩, 0⟩)] }

/-- The version built from `c2Edit` on the empty base. -/
def c2V : List (List FMeta) :=
  saveTo (buildFrom [c2Edit] emptyBuilder) (List.replicate kNumLevels [])

/-- Concrete well-formed disjoint file list for the C2 witness. -/
def c2Files : List FMeta :=
  [⟨1, 10, ⟨0, 5, 1⟩, ⟨10, 4, 1⟩, 0⟩, ⟨2, 10, ⟨20, 3, 1⟩, ⟨30, 2, 1⟩, 0⟩]

theorem builder_saveTo_level_ordering_witness :
    reachableFiles c2V ∧
    (c2V.getD 1 []).Pairwise
      (fun a b => icmpCompare a.smallest b.smallest ≤ 0) ∧
    (∀ f ∈ c2Files, f.wf) ∧ chainDisjoint c2Files ∧
    levelInvariant c2Files := by
  have hreach : reachableFiles c2V :=
    reachableFiles.step _ [c2Edit] reachableFiles.init
  have hch : chainDisjoint c2Files := by
    unfold chainDisjoint c2Files
    exact List.chain'_cons.mpr ⟨by decide, List.chain'_singleton _⟩
  exact ⟨hreach, builder_saveTo_level_ordering.1 c2V hreach 1 (le_refl 1),
    by decide, hch,
    builder_saveTo_level_ordering.2 c2Files (by decide) hch⟩

/-! ### Compaction picking: `GetRange`, `SetupOtherInputs`,
`PickCompaction`, `IsTrivialMove` -/

/-- One step of `VersionSet::GetRange`'s loop: widen the running
(smallest, largest) pair by one file. -/
def rangeStep (p : IKey × IKey) (g : FMeta) : IKey × IKey :=
  (if icmpCompare g.smallest p.1 < 0 then g.smallest else p.1,
   if 0 < icmpCompare g.largest p.2 then g.largest else p.2)

/-- `VersionSet::GetRange`: the minimal internal-key range covering all
inputs (the C++ requires a non-empty list; the empty case yields the
default key and is never used). -/
def getRange (inputs : List FMeta) : IKey × IKey :=
  match inputs with
  | [] => (default, default)
  | f :: rest => rest.foldl rangeStep (f.smallest, f.largest)

/-- `VersionSet::GetRange2`: the range covering two input lists. -/
def getRange2 (inputs1 inputs2 : List FMeta) : IKey × IKey :=
  getRange (inputs1 ++ inputs2)

theorem rangeFold_spec :
    ∀ (l : List FMeta) (p : IKey × IKey),
      (¬ ikeyLt p.1 (l.foldl rangeStep p).1) ∧
      (¬ ikeyLt (l.foldl rangeStep p).2 p.2) ∧
      (∀ f ∈ l, ¬ ikeyLt f.smallest (l.foldl rangeStep p).1 ∧
        ¬ ikeyLt (l.foldl rangeStep p).2 f.largest) ∧
      ((l.foldl rangeStep p).1 = p.1 ∨
        (l.foldl rangeStep p).1 ∈ l.map (·.smallest)) ∧
      ((l.foldl rangeStep p).2 = p.2 ∨
        (l.foldl rangeStep p).2 ∈ l.map (·.largest)) := by
  intro l
  induction l with
  | nil =>
    intro p
    refine ⟨?_, ?_, ?_, Or.inl rfl, Or.inl rfl⟩ <;>
      simp [ikeyLt]
  | cons g rest ih =>
    intro p
    rw [List.foldl_cons]
    obtain ⟨ih1, ih2, ih3, ih4, ih5⟩ := ih (rangeStep p g)
    have hs1 : ¬ ikeyLt p.1 (rangeStep p g).1 := by
      unfold rangeStep
      dsimp only
      split_ifs with h
      · rw [icmpCompare_neg] at h
        unfold ikeyLt at *
        omega
      · unfold ikeyLt; omega
    have hs2 : ¬ ikeyLt (rangeStep p g).2 p.2 := by
      unfold rangeStep
      dsimp only
      split_ifs with h
      · rw [icmpCompare_pos] at h
        unfold ikeyLt at *
        omega
      · unfold ikeyLt; omega
    have hg1 : ¬ ikeyLt g.smallest (rangeStep p g).1 := by
      unfold rangeStep
      dsimp only
      split_ifs with h
      · unfold ikeyLt; omega
      · rw [icmpCompare_neg] at h
        unfold ikeyLt at *
        omega
    have hg2 : ¬ ikeyLt (rangeStep p g).2 g.largest := by
      unfold rangeStep
      dsimp only
      split_ifs with h
      · unfold ikeyLt; omega
      · rw [icmpCompare_pos] at h
        unfold ikeyLt at *
        omega
    refine ⟨ikeyLe_trans ih1 hs1, ikeyLe_trans hs2 ih2, ?_, ?_, ?_⟩
    · intro f hf
      rcases List.mem_cons.mp hf with rfl | hm
      · exact ⟨ikeyLe_trans ih1 hg1, ikeyLe_trans hg2 ih2⟩
      · exact ih3 f hm
    · rcases ih4 with heq | hmem
      · rw [heq]
        unfold rangeStep
        dsimp only
        split_ifs
        · exact Or.inr (by simp)
        · exact Or.inl rfl
      · exact Or.inr (List.mem_cons_of_mem _ hmem)
    · rcases ih5 with heq | hmem
      · rw [heq]
        unfold rangeStep
        dsimp only
        split_ifs
        · exact Or.inr (by simp)
        · exact Or.inl rfl
      · exact Or.inr (List.mem_cons_of_mem _ hmem)

/-- `GetRange` of a non-empty list covers every member and is achieved by
members. -/
theorem getRange_spec (l : List FMeta) (h : l ≠ []) :
    (∀ f ∈ l, ¬ ikeyLt f.smallest (getRange l).1 ∧
      ¬ ikeyLt (getRange l).2 f.largest) ∧
    (getRange l).1 ∈ l.map (·.smallest) ∧
    (getRange l).2 ∈ l.map (·.largest) := by
  rcases l with _ | ⟨f, rest⟩
  · exact absurd rfl h
  · unfold getRange
    obtain ⟨h1, h2, h3, h4, h5⟩ := rangeFold_spec rest (f.smallest, f.largest)
    refine ⟨?_, ?_, ?_⟩
    · intro g hg
      rcases List.mem_cons.mp hg with rfl | hm
      · exact ⟨h1, h2⟩
      · exact h3 g hm
    · rcases h4 with heq | hmem
      · rw [heq]; simp
      · exact List.mem_cons_of_mem _ hmem
    · rcases h5 with heq | hmem
      · rw [heq]; simp
      · exact List.mem_cons_of_mem _ hmem

/-- `class Compaction` (`db/version_set.h`): the level, the two input file
lists, the overlapping grandparent files, and the compaction pointer the
compaction records in its edit. -/
structure Compaction where
  level : Nat
  maxOutputFileSize : Nat
  inputs0 : List FMeta
  inputs1 : List FMeta
  grandparents : List FMeta := []
  editCompactPointer : Option (Nat × IKey) := none
  deriving Repr, DecidableEq

/-- `VersionSet::SetupOtherInputs` (`db/version_set.cc`): compute the
level-(L+1) inputs overlapping the L inputs, optionally grow the L inputs
to all level-L files overlapping the union range (adopted only when that
strictly enlarges the set, keeps the number of L+1 inputs unchanged, and
stays below the expanded-compaction byte limit), record the grandparent
overlaps, and advance the per-level compaction pointer to the largest key
of the final L inputs.  Returns the finished compaction and the updated
`compact_pointer_` array.  `souExpand` is its input-growing stage: it
returns the final (L inputs, L+1 inputs, largest key of the final L
inputs). -/
def souExpand (maxFileSize : Nat) (files : List (List FMeta))
    (c : Compaction) : List FMeta × List FMeta × IKey :=
  let level := c.level
  let r0 := getRange c.inputs0
  let inputs1 := getOverlappingInputs (level + 1) (some r0.1) (some r0.2)
    (files.getD (level + 1) [])
  let rall := getRange2 c.inputs0 inputs1
  if inputs1 ≠ [] then
    let expanded0 := getOverlappingInputs level (some rall.1) (some rall.2)
      (files.getD level [])
    if c.inputs0.length < expanded0.length ∧
        (totalFileSize inputs1 : Int) + totalFileSize expanded0 <
          expandedCompactionByteSizeLimit maxFileSize then
      let rnew := getRange expanded0
      let expanded1 := getOverlappingInputs (level + 1) (some rnew.1)
        (some rnew.2) (files.getD (level + 1) [])
      if expanded1.length = inputs1.length then
        (expanded0, expanded1, rnew.2)
      else (c.inputs0, inputs1, r0.2)
    else (c.inputs0, inputs1, r0.2)
  else (c.inputs0, inputs1, r0.2)

def setupOtherInputs (maxFileSize : Nat) (files : List (List FMeta))
    (cp : List (Option IKey)) (c : Compaction) :
    Compaction × List (Option IKey) :=
  let level := c.level
  let exp := souExpand maxFileSize files c
  let rall2 := getRange2 exp.1 exp.2.1
  let grandparents :=
    if level + 2 < kNumLevels then
      getOverlappingInputs (level + 2) (some rall2.1) (some rall2.2)
        (files.getD (level + 2) [])
    else c.grandparents
  ({ c with
      inputs0 := exp.1,
      inputs1 := exp.2.1,
      grandparents := grandparents,
      editCompactPointer := some (level, exp.2.2) },
    cp.set level (some exp.2.2))

/-- `GetOverlappingInputs` at a level ≥ 1 is the plain intersection
filter. -/
theorem getOverlappingInputs_pos (level : Nat) (h : level ≠ 0)
    (b e : Option IKey) (files : List FMeta) :
    getOverlappingInputs level b e files =
      files.filter (overlapsRange (b.map IKey.ukey) (e.map IKey.ukey)) := by
  unfold getOverlappingInputs
  rw [show (level == 0) = false by simpa using h, goiLoop_false]

theorem ikey_le_ukey {a b : IKey} (h : ¬ ikeyLt b a) : a.ukey ≤ b.ukey := by
  unfold ikeyLt at h
  omega

theorem FMeta.wf_ukey {f : FMeta} (h : f.wf) :
    f.smallest.ukey ≤ f.largest.ukey := by
  unfold FMeta.wf at h
  apply ikey_le_ukey
  intro hc
  have := icmpCompare_pos.mpr hc
  omega

/-- The range of a non-empty list of well-formed files is itself
well-ordered. -/
theorem getRange_le (l : List FMeta) (hne : l ≠ [])
    (hwf : ∀ f ∈ l, f.wf) : ¬ ikeyLt (getRange l).2 (getRange l).1 := by
  obtain ⟨hb, hach1, _⟩ := getRange_spec l hne
  rcases List.mem_map.mp hach1 with ⟨f0, hf0, heq⟩
  have hbnd := hb f0 hf0
  have hwf0 : ¬ ikeyLt f0.largest f0.smallest := by
    have := hwf f0 hf0
    unfold FMeta.wf at this
    intro hc
    have := icmpCompare_pos.mpr hc
    omega
  rw [← heq]
  exact ikeyLe_trans hwf0 hbnd.2

/-- Membership in `GetOverlappingInputs` for a file overlapping the
window, at any level. -/
theorem mem_getOverlappingInputs (level : Nat) (b e : IKey)
    (files : List FMeta) (f : FMeta) (hf : f ∈ files)
    (hwff : f.smallest.ukey ≤ f.largest.ukey)
    (hbe : b.ukey ≤ e.ukey)
    (h1 : b.ukey ≤ f.largest.ukey) (h2 : f.smallest.ukey ≤ e.ukey) :
    f ∈ getOverlappingInputs level (some b) (some e) files := by
  have hov : overlapsRange (some b.ukey) (some e.ukey) f = true := by
    unfold overlapsRange
    rw [Bool.and_eq_true, Bool.not_eq_true', Bool.not_eq_true',
      beforeRange_eq_false, afterRange_eq_false]
    exact ⟨fun x hx => by cases hx; omega, fun x hx => by cases hx; omega⟩
  by_cases h0 : level = 0
  · subst h0
    unfold getOverlappingInputs
    simp only [beq_self_eq_true, Option.map_some']
    rcases goiLoop_true_spec files
        (goiMeasure files (some b.ukey) (some e.ukey))
        (some b.ukey) (some e.ukey) (le_refl _) with
      ⟨ubF, ueF, hw1, hw2, hres, _⟩
    rw [hres]
    apply List.mem_filter.mpr
    refine ⟨hf, overlapsRange_widen hw1 hw2 ?_⟩
    exact ⟨max f.smallest.ukey b.ukey,
      fun x hx => by cases hx; omega,
      fun x hx => by cases hx; omega,
      le_max_left _ _, by omega⟩
  · rw [getOverlappingInputs_pos level h0]
    exact List.mem_filter.mpr ⟨hf, hov⟩

theorem getD_set_eq {α : Type} (l : List α) (i : Nat) (x d : α)
    (h : i < l.length) : (l.set i x).getD i d = x := by
  rw [List.getD_eq_getElem _ _ (by simpa using h)]
  exact List.getElem_set_self _

/-- Spec-side description of the `SetupOtherInputs` expansion decision: the
level-L inputs are replaced by all level-L files overlapping the union
range exactly when that strictly enlarges the input set, the recomputed
level-(L+1) input set is unchanged (as a set, not merely in count), and
the total expanded bytes stay below the expanded-compaction limit. -/
def specExpandedInputs0 (maxFileSize : Nat) (files : List (List FMeta))
    (c : Compaction) : List FMeta :=
  let r0 := getRange c.inputs0
  let inputs1 := (files.getD (c.level + 1) []).filter
    (overlapsRange (some r0.1.ukey) (some r0.2.ukey))
  let rall := getRange2 c.inputs0 inputs1
  let expanded0 := getOverlappingInputs c.level (some rall.1) (some rall.2)
    (files.getD c.level [])
  let rnew := getRange expanded0
  let expanded1 := (files.getD (c.level + 1) []).filter
    (overlapsRange (some rnew.1.ukey) (some rnew.2.ukey))
  if inputs1 ≠ [] ∧ c.inputs0.length < expanded0.length ∧
      (totalFileSize inputs1 : Int) + totalFileSize expanded0 <
        expandedCompactionByteSizeLimit maxFileSize ∧
      expanded1 = inputs1
  then expanded0 else c.inputs0

/-- Characterisation of the input-growing stage of `SetupOtherInputs`. -/
theorem souExpand_spec (maxFileSize : Nat) (files : List (List FMeta))
    (c : Compaction)
    (hne : c.inputs0 ≠ [])
    (hsub : ∀ f ∈ c.inputs0, f ∈ files.getD c.level [])
    (hwf0 : ∀ f ∈ c.inputs0, f.wf)
    (hwf1 : ∀ f ∈ files.getD (c.level + 1) [], f.wf) :
    (souExpand maxFileSize files c).1 =
      specExpandedInputs0 maxFileSize files c ∧
    (souExpand maxFileSize files c).2.1 =
      (files.getD (c.level + 1) []).filter
        (overlapsRange
          (some (getRange (souExpand maxFileSize files c).1).1.ukey)
          (some (getRange (souExpand maxFileSize files c).1).2.ukey)) ∧
    (souExpand maxFileSize files c).2.2 =
      (getRange (souExpand maxFileSize files c).1).2 := by
  have hL1 : ∀ (b e : IKey),
      getOverlappingInputs (c.level + 1) (some b) (some e)
        (files.getD (c.level + 1) []) =
      (files.getD (c.level + 1) []).filter
        (overlapsRange (some b.ukey) (some e.ukey)) := by
    intro b e
    rw [getOverlappingInputs_pos (c.level + 1) (Nat.succ_ne_zero _)]
    rfl
  set r0 := getRange c.inputs0 with hr0
  set inputs1 := (files.getD (c.level + 1) []).filter
    (overlapsRange (some r0.1.ukey) (some r0.2.ukey)) with hinputs1
  set rall := getRange (c.inputs0 ++ inputs1) with hrall
  set expanded0 := getOverlappingInputs c.level (some rall.1) (some rall.2)
    (files.getD c.level []) with hexp0
  set rnew := getRange expanded0 with hrnew
  set expanded1 := (files.getD (c.level + 1) []).filter
    (overlapsRange (some rnew.1.ukey) (some rnew.2.ukey)) with hexp1
  -- the concatenated input list is non-empty and well formed
  have hcatne : c.inputs0 ++ inputs1 ≠ [] := by
    intro hc
    exact hne (List.append_eq_nil.mp hc).1
  have hcatwf : ∀ f ∈ c.inputs0 ++ inputs1, f.wf := by
    intro f hf
    rcases List.mem_append.mp hf with hm | hm
    · exact hwf0 f hm
    · exact hwf1 f (List.mem_filter.mp hm).1
  obtain ⟨hrallb, _, _⟩ := getRange_spec (c.inputs0 ++ inputs1) hcatne
  simp only [← hrall] at hrallb
  have hralle : ¬ ikeyLt rall.2 rall.1 := by
    have := getRange_le _ hcatne hcatwf
    simpa only [← hrall] using this
  -- every original input lies in the expanded set
  have hsubexp : ∀ f ∈ c.inputs0, f ∈ expanded0 := by
    intro f hf
    have hb := hrallb f (List.mem_append.mpr (Or.inl hf))
    have hwff := FMeta.wf_ukey (hwf0 f hf)
    apply mem_getOverlappingInputs c.level rall.1 rall.2 _ f (hsub f hf) hwff
      (ikey_le_ukey hralle)
    · have := ikey_le_ukey hb.1
      omega
    · have := ikey_le_ukey hb.2
      omega
  have hexpne : expanded0 ≠ [] := by
    intro hc
    rcases List.exists_mem_of_ne_nil _ hne with ⟨f, hf⟩
    have := hsubexp f hf
    rw [hc] at this
    cases this
  -- the new range extends the old one (in user-key terms)
  obtain ⟨hi0b, hach1, hach2⟩ := getRange_spec c.inputs0 hne
  obtain ⟨hnewb, _, _⟩ := getRange_spec expanded0 hexpne
  have hw1 : rnew.1.ukey ≤ r0.1.ukey := by
    rcases List.mem_map.mp hach1 with ⟨f0, hf0, heq⟩
    have := ikey_le_ukey (hnewb f0 (hsubexp f0 hf0)).1
    rw [heq] at this
    exact this
  have hw2 : r0.2.ukey ≤ rnew.2.ukey := by
    rcases List.mem_map.mp hach2 with ⟨f1, hf1, heq⟩
    have := ikey_le_ukey (hnewb f1 (hsubexp f1 hf1)).2
    rw [heq] at this
    exact this
  -- hence the recomputed L+1 inputs contain the original ones
  have hsublist : List.Sublist inputs1 expanded1 := by
    rw [hinputs1, hexp1]
    apply List.monotone_filter_right
    intro x hx
    unfold overlapsRange at hx ⊢
    rw [Bool.and_eq_true, Bool.not_eq_true', Bool.not_eq_true',
      beforeRange_eq_false, afterRange_eq_false] at hx ⊢
    obtain ⟨hx1, hx2⟩ := hx
    constructor
    · intro bb hbb
      cases hbb
      have := hx1 r0.1.ukey rfl
      omega
    · intro ee hee
      cases hee
      have := hx2 r0.2.ukey rfl
      omega
  have hlen_iff : ∀ (h : expanded1.length = inputs1.length),
      expanded1 = inputs1 :=
    fun h => (List.Sublist.eq_of_length hsublist h.symm).symm
  -- now compute both sides
  unfold souExpand specExpandedInputs0
  simp only [getRange2]
  rw [hL1 r0.1 r0.2]
  simp only [← hr0, ← hinputs1, ← hrall, ← hexp0]
  by_cases hA : inputs1 ≠ []
  · rw [if_pos hA]
    by_cases hB : c.inputs0.length < expanded0.length ∧
        (totalFileSize inputs1 : Int) + totalFileSize expanded0 <
          expandedCompactionByteSizeLimit maxFileSize
    · rw [if_pos hB, hL1 rnew.1 rnew.2]
      simp only [← hrnew, ← hexp1]
      by_cases hC : expanded1.length = inputs1.length
      · rw [if_pos hC, if_pos ⟨hA, hB.1, hB.2, hlen_iff hC⟩]
        exact ⟨rfl, rfl, rfl⟩
      · rw [if_neg hC, if_neg (by
          rintro ⟨_, _, _, heq⟩
          exact hC (by rw [heq]))]
        exact ⟨rfl, rfl, rfl⟩
    · rw [if_neg hB, if_neg (by
        rintro ⟨_, hb1, hb2, _⟩
        exact hB ⟨hb1, hb2⟩)]
      exact ⟨rfl, rfl, rfl⟩
  · rw [if_neg hA, if_neg (by
      rintro ⟨ha, _⟩
      exact hA ha)]
    exact ⟨rfl, rfl, rfl⟩

/-- **C5**: `SetupOtherInputs` sets the level-(L+1) inputs to the files of
level L+1 overlapping the key range of the (final) level-L inputs; it
replaces the level-L inputs with all level-L files overlapping the union
range exactly when that strictly enlarges the input set, the recomputed
level-(L+1) input set is unchanged, and the total expanded bytes stay below
`expanded_compaction_limit` (25 × target file size); afterwards the
per-level compaction pointer equals the largest key of the final level-L
inputs (their maximal largest key). -/
theorem setupOtherInputs_spec (maxFileSize : Nat) (files : List (List FMeta))
    (cp : List (Option IKey)) (c : Compaction)
    (hne : c.inputs0 ≠ [])
    (hsub : ∀ f ∈ c.inputs0, f ∈ files.getD c.level [])
    (hwf0 : ∀ f ∈ c.inputs0, f.wf)
    (hwf1 : ∀ f ∈ files.getD (c.level + 1) [], f.wf)
    (hcp : c.level < cp.length) :
    (setupOtherInputs maxFileSize files cp c).1.inputs1 =
      (files.getD (c.level + 1) []).filter
        (overlapsRange
          (some (getRange
            (setupOtherInputs maxFileSize files cp c).1.inputs0).1.ukey)
          (some (getRange
            (setupOtherInputs maxFileSize files cp c).1.inputs0).2.ukey)) ∧
    (setupOtherInputs maxFileSize files cp c).1.inputs0 =
      specExpandedInputs0 maxFileSize files c ∧
    (setupOtherInputs maxFileSize files cp c).2.getD c.level none =
      some (getRange
        (setupOtherInputs maxFileSize files cp c).1.inputs0).2 ∧
    (∀ f ∈ (setupOtherInputs maxFileSize files cp c).1.inputs0,
      ¬ ikeyLt (getRange
        (setupOtherInputs maxFileSize files cp c).1.inputs0).2 f.largest) ∧
    (getRange (setupOtherInputs maxFileSize files cp c).1.inputs0).2 ∈
      (setupOtherInputs maxFileSize files cp c).1.inputs0.map (·.largest) := by
  obtain ⟨h1, h2, h3⟩ := souExpand_spec maxFileSize files c hne hsub hwf0 hwf1
  have hproj0 : (setupOtherInputs maxFileSize files cp c).1.inputs0 =
      (souExpand maxFileSize files c).1 := rfl
  have hproj1 : (setupOtherInputs maxFileSize files cp c).1.inputs1 =
      (souExpand maxFileSize files c).2.1 := rfl
  have hproj2 : (setupOtherInputs maxFileSize files cp c).2 =
      cp.set c.level (some (souExpand maxFileSize files c).2.2) := rfl
  have hfinne : (souExpand maxFileSize files c).1 ≠ [] := by
    rw [h1]
    unfold specExpandedInputs0
    dsimp only
    split_ifs with hcond
    · intro hc
      have := hcond.2.1
      rw [hc] at this
      simp at this
    · exact hne
  refine ⟨?_, ?_, ?_, ?_, ?_⟩
  · rw [hproj1, hproj0]
    exact h2
  · rw [hproj0]
    exact h1
  · rw [hproj2, hproj0, getD_set_eq _ _ _ _ hcp, h3]
  · rw [hproj0]
    exact fun f hf => ((getRange_spec _ hfinne).1 f hf).2
  · rw [hproj0]
    exact (getRange_spec _ hfinne).2.2

/-- Level-1 input file for the `setupOtherInputs_spec` witness. -/
def c5F : FMeta := ⟨4, 100, ⟨10, 9, 1⟩, ⟨20, 8, 1⟩, 0⟩

/-- Level-2 file overlapping `c5F`, for the `setupOtherInputs_spec`
witness. -/
def c5G : FMeta := ⟨5, 100, ⟨15, 7, 1⟩, ⟨25, 6, 1⟩, 0⟩

/-- Concrete level layout for the `setupOtherInputs_spec` witness. -/
def c5Files : List (List FMeta) := [[], [c5F], [c5G]]

/-- Concrete compaction (level 1, one input file). -/
def c5C : Compaction := ⟨1, 100, [c5F], [], [], none⟩

/-- Untouched compaction pointers. -/
def c5CP : List (Option IKey) := List.replicate 7 none

theorem setupOtherInputs_spec_witness :
    (c5C.inputs0 ≠ [] ∧ (∀ f ∈ c5C.inputs0, f ∈ c5Files.getD c5C.level []) ∧
      (∀ f ∈ c5C.inputs0, f.wf) ∧
      (∀ f ∈ c5Files.getD (c5C.level + 1) [], f.wf) ∧
      c5C.level < c5CP.length) ∧
    (setupOtherInputs 100 c5Files c5CP c5C).2.getD c5C.level none =
      some (getRange
        (setupOtherInputs 100 c5Files c5CP c5C).1.inputs0).2 := by
  refine ⟨⟨by decide, by decide, by decide, by decide, by decide⟩, ?_⟩
  exact (setupOtherInputs_spec 100 c5Files c5CP c5C (by decide) (by decide)
    (by decide) (by decide) (by decide)).2.2.1

/-- `Compaction::IsTrivialMove` (`db/version_set.cc`): one level-L input,
no level-(L+1) input, and grandparent overlap bytes at most
`MaxGrandParentOverlapBytes`. -/
def Compaction.isTrivialMove (maxFileSize : Nat) (c : Compaction) : Bool :=
  c.inputs0.length == 1 && c.inputs1.length == 0 &&
    decide (totalFileSize c.grandparents ≤
      maxGrandParentOverlapBytes maxFileSize)

/-- **C7**: a compaction produced by `SetupOtherInputs` is a trivial move
exactly when it has a single level-L input file, no level-(L+1) input
files, and the total size of the level-(L+2) files overlapping the
compaction's key range is at most `max_grandparent_overlap`
(10 × target file size). -/
theorem isTrivialMove_spec (maxFileSize : Nat) (files : List (List FMeta))
    (cp : List (Option IKey)) (c : Compaction)
    (h2 : c.level + 2 < kNumLevels) :
    ((setupOtherInputs maxFileSize files cp c).1.isTrivialMove maxFileSize
        = true ↔
      (setupOtherInputs maxFileSize files cp c).1.inputs0.length = 1 ∧
      (setupOtherInputs maxFileSize files cp c).1.inputs1.length = 0 ∧
      totalFileSize ((files.getD (c.level + 2) []).filter
        (overlapsRange
          (some (getRange2 (setupOtherInputs maxFileSize files cp c).1.inputs0
            (setupOtherInputs maxFileSize files cp c).1.inputs1).1.ukey)
          (some (getRange2 (setupOtherInputs maxFileSize files cp c).1.inputs0
            (setupOtherInputs maxFileSize files cp c).1.inputs1).2.ukey))) ≤
        maxGrandParentOverlapBytes maxFileSize) := by
  have hgp : (setupOtherInputs maxFileSize files cp c).1.grandparents =
      (files.getD (c.level + 2) []).filter
        (overlapsRange
          (some (getRange2 (setupOtherInputs maxFileSize files cp c).1.inputs0
            (setupOtherInputs maxFileSize files cp c).1.inputs1).1.ukey)
          (some (getRange2 (setupOtherInputs maxFileSize files cp c).1.inputs0
            (setupOtherInputs maxFileSize files cp c).1.inputs1).2.ukey)) := by
    have hif : (setupOtherInputs maxFileSize files cp c).1.grandparents =
        if c.level + 2 < kNumLevels then
          getOverlappingInputs (c.level + 2)
            (some (getRange2 (souExpand maxFileSize files c).1
              (souExpand maxFileSize files c).2.1).1)
            (some (getRange2 (souExpand maxFileSize files c).1
              (souExpand maxFileSize files c).2.1).2)
            (files.getD (c.level + 2) [])
        else c.grandparents := rfl
    rw [hif, if_pos h2, getOverlappingInputs_pos _ (by omega)]
    rfl
  unfold Compaction.isTrivialMove
  rw [hgp]
  simp [Bool.and_eq_true, and_assoc]

/-- Level-1 input file for the `isTrivialMove_spec` witness. -/
def c7F : FMeta := ⟨4, 100, ⟨10, 9, 1⟩, ⟨20, 8, 1⟩, 0⟩

/-- Level-2 file for the `isTrivialMove_spec` witness (does not overlap
`c7F`, so the compaction stays a trivial move). -/
def c7G : FMeta := ⟨5, 100, ⟨30, 7, 1⟩, ⟨40, 6, 1⟩, 0⟩

/-- Level-3 (grandparent) file for the `isTrivialMove_spec` witness. -/
def c7H : FMeta := ⟨6, 100, ⟨12, 5, 1⟩, ⟨18, 4, 1⟩, 0⟩

/-- Concrete level layout for the `isTrivialMove_spec` witness. -/
def c7Files : List (List FMeta) := [[], [c7F], [c7G], [c7H]]

/-- Concrete compaction (level 1, one input file). -/
def c7C : Compaction := ⟨1, 100, [c7F], [], [], none⟩

/-- Untouched compaction pointers. -/
def c7CP : List (Option IKey) := List.replicate 7 none

theorem isTrivialMove_spec_witness :
    c7C.level + 2 < kNumLevels ∧
    ((setupOtherInputs 100 c7Files c7CP c7C).1.isTrivialMove 100 = true ↔
      (setupOtherInputs 100 c7Files c7CP c7C).1.inputs0.length = 1 ∧
      (setupOtherInputs 100 c7Files c7CP c7C).1.inputs1.length = 0 ∧
      totalFileSize ((c7Files.getD (c7C.level + 2) []).filter
        (overlapsRange
          (some (getRange2 (setupOtherInputs 100 c7Files c7CP c7C).1.inputs0
            (setupOtherInputs 100 c7Files c7CP c7C).1.inputs1).1.ukey)
          (some (getRange2 (setupOtherInputs 100 c7Files c7CP c7C).1.inputs0
            (setupOtherInputs 100 c7Files c7CP c7C).1.inputs1).2.ukey))) ≤
        maxGrandParentOverlapBytes 100) :=
  ⟨by decide, isTrivialMove_spec 100 c7Files c7CP c7C (by decide)⟩

/-! ### `VersionSet::PickCompaction` -/

/-- The level-0 expansion step of `PickCompaction`
(`db/version_set.cc`, the `level == 0` block): a level-0 pick is grown to
all level-0 files overlapping its key range; other levels keep the pick. -/
def pickExpand (files : List (List FMeta)) (level : Nat)
    (picked : List FMeta) : List FMeta :=
  if level = 0 then
    getOverlappingInputs 0 (some (getRange picked).1)
      (some (getRange picked).2) (files.getD 0 [])
  else picked

/-- The shared tail of `PickCompaction`: build the compaction from the
picked level-L inputs (expanding a level-0 pick) and finish it with
`SetupOtherInputs`. -/
def finishPick (maxFileSize : Nat) (cp : List (Option IKey))
    (files : List (List FMeta)) (level : Nat) (picked : List FMeta) :
    Compaction × List (Option IKey) :=
  setupOtherInputs maxFileSize files cp
    ⟨level, maxFileSize, pickExpand files level picked, [], [], none⟩

/-- `VersionSet::PickCompaction` (`db/version_set.cc`): prefer a size
compaction when the current score is ≥ 1 (first file of the level whose
largest key compares strictly greater than the stored per-level compaction
pointer, wrapping to the level's first file when none does), otherwise a
seek compaction when a file has been flagged by the seek statistics,
otherwise nothing. -/
def pickCompaction (maxFileSize : Nat) (cp : List (Option IKey))
    (v : Version) : Option (Compaction × List (Option IKey)) :=
  if 1 ≤ v.compactionScore then
    let level := v.compactionLevel.toNat
    let lfiles := v.files.getD level []
    let picked :=
      match lfiles.find? (fun f =>
        match cp.getD level none with
        | none => true
        | some p => decide (ikeyLt p f.largest)) with
      | some f => [f]
      | none => lfiles.take 1
    some (finishPick maxFileSize cp v.files level picked)
  else
    match v.fileToCompact with
    | some f =>
      some (finishPick maxFileSize cp v.files v.fileToCompactLevel.toNat [f])
    | none => none

/-- Spec side: a file qualifies for a size compaction when its largest key
is strictly greater than the stored compaction pointer; an unset pointer
lets every file qualify. -/
def pastPointer (p : Option IKey) (f : FMeta) : Prop :=
  ∀ q, p = some q → ikeyLt q f.largest

/-- Spec side: `picked` is the size-compaction pick from the level's files
under pointer `p` — the first file past the pointer, or the level's first
file when none qualifies. -/
def specSizePick (p : Option IKey) (lfiles picked : List FMeta) : Prop :=
  (∃ n, n < lfiles.length ∧ picked = [lfiles.getD n default] ∧
    pastPointer p (lfiles.getD n default) ∧
    ∀ j, j < n → ¬ pastPointer p (lfiles.getD j default)) ∨
  ((∀ f ∈ lfiles, ¬ pastPointer p f) ∧ picked = lfiles.take 1)

theorem find?_some_first {α : Type} [Inhabited α] {l : List α}
    {p : α → Bool} {a : α} (h : l.find? p = some a) :
    ∃ n, n < l.length ∧ l.getD n default = a ∧ p a = true ∧
      ∀ j, j < n → p (l.getD j default) = false := by
  induction l with
  | nil => simp at h
  | cons x xs ih =>
    by_cases hx : p x = true
    · rw [List.find?_cons_of_pos _ hx] at h
      injection h with h
      subst h
      exact ⟨0, by simp, rfl, hx, fun j hj => absurd hj (by omega)⟩
    · rw [List.find?_cons_of_neg _ (by simpa using hx)] at h
      obtain ⟨n, hn, hget, hp, hb⟩ := ih h
      refine ⟨n + 1, by simpa using hn, by simpa [List.getD] using hget,
        hp, ?_⟩
      intro j hj
      cases j with
      | zero =>
        simpa [List.getD] using hx
      | succ j =>
        simpa [List.getD] using hb j (by omega)

/-- **C3**: `PickCompaction` chooses a size compaction whenever the score
is ≥ 1, picking the first file of the chosen level whose largest key is
strictly greater than the stored per-level compaction pointer and wrapping
to the level's first file when none qualifies; only when the score is < 1
does it pick the seek-flagged file at its recorded level; with neither it
returns nothing; and a level-0 pick is expanded to a set containing every
level-0 file intersecting its key range and closed under user-key
overlap. -/
theorem pickCompaction_spec (maxFileSize : Nat) (cp : List (Option IKey))
    (v : Version) :
    (v.compactionScore < 1 → v.fileToCompact = none →
      pickCompaction maxFileSize cp v = none) ∧
    (∀ f, v.compactionScore < 1 → v.fileToCompact = some f →
      pickCompaction maxFileSize cp v =
        some (finishPick maxFileSize cp v.files v.fileToCompactLevel.toNat
          [f])) ∧
    (1 ≤ v.compactionScore →
      ∃ picked,
        pickCompaction maxFileSize cp v =
          some (finishPick maxFileSize cp v.files v.compactionLevel.toNat
            picked) ∧
        specSizePick (cp.getD v.compactionLevel.toNat none)
          (v.files.getD v.compactionLevel.toNat []) picked) ∧
    (∀ picked f, f ∈ v.files.getD 0 [] →
      rangeIntersects (some (getRange picked).1.ukey)
        (some (getRange picked).2.ukey) f →
      f ∈ pickExpand v.files 0 picked) ∧
    (∀ picked f, f ∈ pickExpand v.files 0 picked →
      ∀ g ∈ v.files.getD 0 [], userOverlap g f →
      g ∈ pickExpand v.files 0 picked) := by
  refine ⟨?_, ?_, ?_, ?_, ?_⟩
  · intro hlt hnone
    unfold pickCompaction
    rw [if_neg (not_le.mpr hlt), hnone]
  · intro f hlt hsome
    unfold pickCompaction
    rw [if_neg (not_le.mpr hlt), hsome]
  · intro hscore
    unfold pickCompaction
    rw [if_pos hscore]
    dsimp only
    refine ⟨_, rfl, ?_⟩
    have hpr_iff : ∀ f : FMeta,
        ((match cp.getD v.compactionLevel.toNat none with
          | none => true
          | some p => decide (ikeyLt p f.largest)) = true) ↔
        pastPointer (cp.getD v.compactionLevel.toNat none) f := by
      intro f
      cases hc : cp.getD v.compactionLevel.toNat none with
      | none =>
        simp [pastPointer]
      | some p =>
        simp [pastPointer]
    cases hfind : (v.files.getD v.compactionLevel.toNat []).find?
        (fun f =>
          match cp.getD v.compactionLevel.toNat none with
          | none => true
          | some p => decide (ikeyLt p f.largest)) with
    | some f =>
      obtain ⟨n, hn, hget, hp, hb⟩ := find?_some_first hfind
      left
      refine ⟨n, hn, by rw [hget], ?_, ?_⟩
      · rw [hget]
        exact (hpr_iff f).mp hp
      · intro j hj hpj
        have hfalse := hb j hj
        rw [← Bool.not_eq_true] at hfalse
        exact hfalse ((hpr_iff _).mpr hpj)
    | none =>
      right
      refine ⟨?_, rfl⟩
      intro f hf hpf
      have := List.find?_eq_none.mp hfind f hf
      exact this ((hpr_iff f).mpr hpf)
  · intro picked f hf hint
    unfold pickExpand
    rw [if_pos rfl]
    unfold getOverlappingInputs
    simp only [beq_self_eq_true, Option.map_some']
    rcases goiLoop_true_spec (v.files.getD 0 [])
        (goiMeasure (v.files.getD 0 []) (some (getRange picked).1.ukey)
          (some (getRange picked).2.ukey))
        (some (getRange picked).1.ukey) (some (getRange picked).2.ukey)
        (le_refl _) with ⟨ubF, ueF, hw1, hw2, hres, _⟩
    rw [hres]
    exact List.mem_filter.mpr ⟨hf, overlapsRange_widen hw1 hw2 hint⟩
  · intro picked f hf g hg hov
    unfold pickExpand at hf ⊢
    rw [if_pos rfl] at hf ⊢
    unfold getOverlappingInputs at hf ⊢
    simp only [beq_self_eq_true, Option.map_some'] at hf ⊢
    rcases goiLoop_true_spec (v.files.getD 0 [])
        (goiMeasure (v.files.getD 0 []) (some (getRange picked).1.ukey)
          (some (getRange picked).2.ukey))
        (some (getRange picked).1.ukey) (some (getRange picked).2.ukey)
        (le_refl _) with ⟨ubF, ueF, hw1, hw2, hres, hfit⟩
    rw [hres] at hf ⊢
    rcases List.mem_filter.mp hf with ⟨hfmem, hfov⟩
    rcases hfit f hfmem hfov with ⟨hxb, hxe⟩
    rcases hov with ⟨k, hg1, hg2, hf1, hf2⟩
    apply List.mem_filter.mpr
    refine ⟨hg, ?_⟩
    unfold overlapsRange
    rw [Bool.and_eq_true, Bool.not_eq_true', Bool.not_eq_true',
      beforeRange_eq_false, afterRange_eq_false]
    constructor
    · intro bf hbf
      have := extendsBegin_eq_false.mp hxb bf hbf
      omega
    · intro ef hef
      have := extendsEnd_eq_false.mp hxe ef hef
      omega

/-- First level-1 file for the `pickCompaction_spec` witness. -/
def c3F1 : FMeta := ⟨1, 100, ⟨0, 9, 1⟩, ⟨10, 8, 1⟩, 0⟩

/-- Second level-1 file for the `pickCompaction_spec` witness. -/
def c3F2 : FMeta := ⟨2, 100, ⟨20, 7, 1⟩, ⟨30, 6, 1⟩, 0⟩

/-- Version with compaction score 2 at level 1, for the
`pickCompaction_spec` witness. -/
def c3V : Version := ⟨[[], [c3F1, c3F2], []], none, -1, 2, 1⟩

/-- Compaction pointers with level 1 pointing at `c3F1`'s largest key, so
the size compaction must pick `c3F2`. -/
def c3CP : List (Option IKey) :=
  (List.replicate 7 (none : Option IKey)).set 1 (some ⟨10, 8, 1⟩)

theorem pickCompaction_spec_witness :
    (1 : ℚ) ≤ c3V.compactionScore ∧
    ∃ picked,
      pickCompaction 100 c3CP c3V =
        some (finishPick 100 c3CP c3V.files c3V.compactionLevel.toNat
          picked) ∧
      specSizePick (c3CP.getD c3V.compactionLevel.toNat none)
        (c3V.files.getD c3V.compactionLevel.toNat []) picked :=
  ⟨by norm_num [c3V], (pickCompaction_spec 100 c3CP c3V).2.2.1
    (by norm_num [c3V])⟩

/-! ### `SomeFileOverlapsRange` and `PickLevelForMemTableOutput` -/

/-- `kMaxSequenceNumber` (`db/dbformat.h`). -/
def kMaxSequenceNumber : Nat := 2 ^ 56 - 1

/-- `AfterFile` (`db/version_set.cc`): a NULL user key occurs before all
keys and is therefore never after a file. -/
def afterFile (userKey : Option Nat) (f : FMeta) : Bool :=
  match userKey with
  | none => false
  | some k => decide (0 < ucmpCompare k f.largest.ukey)

/-- `BeforeFile` (`db/version_set.cc`): a NULL user key occurs after all
keys and is therefore never before a file. -/
def beforeFile (userKey : Option Nat) (f : FMeta) : Bool :=
  match userKey with
  | none => false
  | some k => decide (ucmpCompare k f.smallest.ukey < 0)

/-- `SomeFileOverlapsRange` (`db/version_set.cc`): a linear scan when the
files may overlap each other (level 0); otherwise a binary search by
`FindFile` on the earliest internal key carrying the smallest user key. -/
def someFileOverlapsRange (disjointSortedFiles : Bool) (files : List FMeta)
    (smallestUserKey largestUserKey : Option Nat) : Bool :=
  if !disjointSortedFiles then
    files.any (fun f =>
      !(afterFile smallestUserKey f || beforeFile largestUserKey f))
  else
    let index :=
      match smallestUserKey with
      | some k => findFile files ⟨k, kMaxSequenceNumber, 1⟩
      | none => 0
    if files.length ≤ index then false
    else !beforeFile largestUserKey (files.getD index default)

/-- `Version::OverlapInLevel` (`db/version_set.cc`). -/
def overlapInLevel (files : List (List FMeta)) (level : Nat)
    (smallestUserKey largestUserKey : Option Nat) : Bool :=
  someFileOverlapsRange (decide (0 < level)) (files.getD level [])
    smallestUserKey largestUserKey

/-- The `while` loop of `Version::PickLevelForMemTableOutput`
(`db/version_set.cc`): advance to the next level while below
`kMaxMemCompactLevel`, the next level does not overlap the range, and the
bytes of grandparent (current level + 2) files overlapping the range stay
within `MaxGrandParentOverlapBytes`. -/
def pickLoop (maxFileSize : Nat) (files : List (List FMeta)) (s l : Nat)
    (level : Nat) : Nat :=
  if _h : level < kMaxMemCompactLevel then
    if overlapInLevel files (level + 1) (some s) (some l) then level
    else if decide (level + 2 < kNumLevels) &&
        decide (maxGrandParentOverlapBytes maxFileSize <
          totalFileSize (getOverlappingInputs (level + 2)
            (some ⟨s, kMaxSequenceNumber, 1⟩) (some ⟨l, 0, 0⟩)
            (files.getD (level + 2) []))) then level
    else pickLoop maxFileSize files s l (level + 1)
  else level
termination_by kMaxMemCompactLevel - level
decreasing_by
  omega

/-- `Version::PickLevelForMemTableOutput` (`db/version_set.cc`). -/
def pickLevelForMemTableOutput (maxFileSize : Nat)
    (files : List (List FMeta)) (s l : Nat) : Nat :=
  if overlapInLevel files 0 (some s) (some l) then 0
  else pickLoop maxFileSize files s l 0

/-- One step of the memtable-output descent is allowed at level `j`: the
next level does not overlap the range and the grandparent bytes at
`j + 2` are within `MaxGrandParentOverlapBytes`. -/
def memStepOk (maxFileSize : Nat) (files : List (List FMeta)) (s l : Nat)
    (j : Nat) : Prop :=
  overlapInLevel files (j + 1) (some s) (some l) = false ∧
  (j + 2 < kNumLevels →
    totalFileSize (getOverlappingInputs (j + 2)
      (some ⟨s, kMaxSequenceNumber, 1⟩) (some ⟨l, 0, 0⟩)
      (files.getD (j + 2) [])) ≤ maxGrandParentOverlapBytes maxFileSize)

theorem pickLoop_spec (maxFileSize : Nat) (files : List (List FMeta))
    (s l : Nat) : ∀ (n level : Nat), kMaxMemCompactLevel - level ≤ n →
    level ≤ pickLoop maxFileSize files s l level ∧
    pickLoop maxFileSize files s l level ≤ max level kMaxMemCompactLevel ∧
    (∀ j, level ≤ j → j < pickLoop maxFileSize files s l level →
      memStepOk maxFileSize files s l j) ∧
    (pickLoop maxFileSize files s l level < kMaxMemCompactLevel →
      ¬ memStepOk maxFileSize files s l
        (pickLoop maxFileSize files s l level)) := by
  intro n
  induction n with
  | zero =>
    intro level hn
    have hge : ¬ level < kMaxMemCompactLevel := by omega
    rw [pickLoop, dif_neg hge]
    exact ⟨le_refl _, le_max_left _ _, fun j h1 h2 => absurd h2 (by omega),
      fun hlt => absurd hlt hge⟩
  | succ n ih =>
    intro level hn
    by_cases hlt : level < kMaxMemCompactLevel
    · rw [pickLoop, dif_pos hlt]
      by_cases hov : overlapInLevel files (level + 1) (some s) (some l) = true
      · rw [if_pos hov]
        refine ⟨le_refl _, le_max_left _ _,
          fun j h1 h2 => absurd h2 (by omega), fun _ hstep => ?_⟩
        rw [hstep.1] at hov
        exact Bool.false_ne_true hov
      · rw [if_neg hov]
        by_cases hgp : (decide (level + 2 < kNumLevels) &&
            decide (maxGrandParentOverlapBytes maxFileSize <
              totalFileSize (getOverlappingInputs (level + 2)
                (some ⟨s, kMaxSequenceNumber, 1⟩) (some ⟨l, 0, 0⟩)
                (files.getD (level + 2) [])))) = true
        · rw [if_pos hgp]
          rw [Bool.and_eq_true] at hgp
          refine ⟨le_refl _, le_max_left _ _,
            fun j h1 h2 => absurd h2 (by omega), fun _ hstep => ?_⟩
          have hbytes := hstep.2 (of_decide_eq_true hgp.1)
          have := of_decide_eq_true hgp.2
          omega
        · rw [if_neg hgp]
          obtain ⟨ih1, ih2, ih3, ih4⟩ := ih (level + 1) (by omega)
          have hstep : memStepOk maxFileSize files s l level := by
            refine ⟨by simpa using hov, by simpa using hgp⟩
          refine ⟨by omega, ?_, ?_, ih4⟩
          · have hmax : max (level + 1) kMaxMemCompactLevel =
                kMaxMemCompactLevel := Nat.max_eq_right (by omega)
            rw [hmax] at ih2
            exact le_trans ih2 (le_max_right _ _)
          · intro j h1 h2
            rcases Nat.eq_or_lt_of_le h1 with rfl | hj
            · exact hstep
            · exact ih3 j (by omega) h2
    · rw [pickLoop, dif_neg hlt]
      exact ⟨le_refl _, le_max_left _ _, fun j h1 h2 => absurd h2 (by omega),
        fun h => absurd h hlt⟩

/-- The oversized level-3 file of the `PickLevelForMemTableOutput`
counterexample. -/
def c6Big : FMeta := ⟨9, 100000, ⟨0, 9, 1⟩, ⟨100, 8, 1⟩, 0⟩

/-- Counterexample level layout: levels 0–2 empty, one huge file at
level 3 covering the whole key space. -/
def c6Files : List (List FMeta) := [[], [], [], [c6Big]]

/-- **C6, counterexample**: the claim says the function returns the
deepest level `L ≤ 2` such that the range overlaps no file in levels
`0..L` and the bytes of level-`L+2` files overlapping the range are within
`max_grandparent_overlap`.  With levels 0–2 empty and a huge file at
level 3, level 2 satisfies both conditions (level 4 is empty), yet the
code returns 1: the loop checks the grandparent bytes at `level + 2`
*before each step*, so the huge level-3 file stops the descent from 1
to 2, which the claim's condition (looking only at `L + 2 = 4`) never
examines. -/
theorem pickLevel_claim_counterexample :
    pickLevelForMemTableOutput 100 c6Files 10 20 = 1 ∧
    (2 ≤ kMaxMemCompactLevel ∧
      (∀ j, j ≤ 2 → ∀ f ∈ c6Files.getD j [], ¬ rangeIntersects
        (some 10) (some 20) f) ∧
      totalFileSize ((c6Files.getD (2 + 2) []).filter
        (overlapsRange (some 10) (some 20))) ≤
        maxGrandParentOverlapBytes 100) ∧
    pickLevelForMemTableOutput 100 c6Files 10 20 ≠ 2 := by
  have hempty : ∀ (a b : Option Nat),
      someFileOverlapsRange true [] a b = false := by
    intro a b
    unfold someFileOverlapsRange
    simp
  have hov1 : overlapInLevel c6Files 1 (some 10) (some 20) = false :=
    hempty _ _
  have hov2 : overlapInLevel c6Files 2 (some 10) (some 20) = false :=
    hempty _ _
  have hgoi2 : getOverlappingInputs 2 (some ⟨10, kMaxSequenceNumber, 1⟩)
      (some ⟨20, 0, 0⟩) (c6Files.getD 2 []) = [] := by
    rw [getOverlappingInputs_pos 2 (by omega)]
    rfl
  have hgoi3 : getOverlappingInputs 3 (some ⟨10, kMaxSequenceNumber, 1⟩)
      (some ⟨20, 0, 0⟩) (c6Files.getD 3 []) = [c6Big] := by
    rw [getOverlappingInputs_pos 3 (by omega)]
    rfl
  have hloop1 : pickLoop 100 c6Files 10 20 1 = 1 := by
    rw [pickLoop]
    simp only [show (1 : Nat) + 1 = 2 from rfl, show (1 : Nat) + 2 = 3
      from rfl, hov2, hgoi3]
    norm_num [kMaxMemCompactLevel, kNumLevels, maxGrandParentOverlapBytes,
      targetFileSize, totalFileSize, c6Big]
  have hloop0 : pickLoop 100 c6Files 10 20 0 = 1 := by
    rw [pickLoop]
    simp only [show (0 : Nat) + 1 = 1 from rfl, show (0 : Nat) + 2 = 2
      from rfl, hov1, hgoi2]
    norm_num [kMaxMemCompactLevel, kNumLevels, maxGrandParentOverlapBytes,
      targetFileSize, totalFileSize]
    exact hloop1
  have hov0 : overlapInLevel c6Files 0 (some 10) (some 20) = false := rfl
  have hmain : pickLevelForMemTableOutput 100 c6Files 10 20 = 1 := by
    unfold pickLevelForMemTableOutput
    rw [hov0, if_neg Bool.false_ne_true]
    exact hloop0
  refine ⟨hmain, ⟨by decide, ?_, by decide⟩, by rw [hmain]; decide⟩
  intro j hj f hf
  interval_cases j <;> simp [c6Files] at hf

/-- **C6, amended**: `PickLevelForMemTableOutput` returns 0 exactly when
the range overlaps some level-0 file (the code's level-0 overlap test is
the semantic one); otherwise it returns the deepest level reachable from 0
by steps where each step from `j` to `j+1` requires that level `j+1` not
overlap the range (per the code's overlap test) and that the bytes of
level-`j+2` files overlapping the range stay within
`max_grandparent_overlap` — the grandparent check is applied at each
intermediate step, not at `L+2` for the final level only. -/
theorem pickLevelForMemTableOutput_amended (maxFileSize : Nat)
    (files : List (List FMeta)) (s l : Nat)
    (hwf0 : ∀ f ∈ files.getD 0 [], f.smallest.ukey ≤ f.largest.ukey)
    (hsl : s ≤ l) :
    (overlapInLevel files 0 (some s) (some l) = true ↔
      ∃ f ∈ files.getD 0 [], rangeIntersects (some s) (some l) f) ∧
    (overlapInLevel files 0 (some s) (some l) = true →
      pickLevelForMemTableOutput maxFileSize files s l = 0) ∧
    (overlapInLevel files 0 (some s) (some l) = false →
      pickLevelForMemTableOutput maxFileSize files s l ≤
        kMaxMemCompactLevel ∧
      (∀ j, j < pickLevelForMemTableOutput maxFileSize files s l →
        memStepOk maxFileSize files s l j) ∧
      (pickLevelForMemTableOutput maxFileSize files s l <
          kMaxMemCompactLevel →
        ¬ memStepOk maxFileSize files s l
          (pickLevelForMemTableOutput maxFileSize files s l))) := by
  refine ⟨?_, ?_, ?_⟩
  · unfold overlapInLevel someFileOverlapsRange
    simp only [show decide (0 < 0) = false from rfl, Bool.not_false,
      if_true, List.any_eq_true]
    constructor
    · rintro ⟨f, hf, hcond⟩
      refine ⟨f, hf, ?_⟩
      rw [← overlapsRange_iff_intersects (hwf0 f hf)
        (fun b e hb he => by cases hb; cases he; exact hsl)]
      revert hcond
      unfold afterFile beforeFile overlapsRange beforeRange afterRange
      simp only [Bool.not_eq_true', Bool.or_eq_false_iff,
        decide_eq_false_iff_not, not_lt, Bool.and_eq_true,
        Bool.not_eq_true']
      rintro ⟨h1, h2⟩
      have ha := ucmpCompare_nonpos.mp h1
      have hb := ucmpCompare_nonneg.mp h2
      exact ⟨ucmpCompare_nonneg.mpr ha, ucmpCompare_nonpos.mpr hb⟩
    · rintro ⟨f, hf, hint⟩
      refine ⟨f, hf, ?_⟩
      have hov := (overlapsRange_iff_intersects (hwf0 f hf)
        (fun b e hb he => by cases hb; cases he; exact hsl)).mpr hint
      revert hov
      unfold afterFile beforeFile overlapsRange beforeRange afterRange
      simp only [Bool.and_eq_true, Bool.not_eq_true',
        decide_eq_false_iff_not, not_lt, Bool.not_eq_true',
        Bool.or_eq_false_iff]
      rintro ⟨h1, h2⟩
      have ha := ucmpCompare_nonneg.mp h1
      have hb := ucmpCompare_nonpos.mp h2
      exact ⟨ucmpCompare_nonpos.mpr ha, ucmpCompare_nonneg.mpr hb⟩
  · intro hov
    unfold pickLevelForMemTableOutput
    rw [hov, if_pos rfl]
  · intro hov
    unfold pickLevelForMemTableOutput
    rw [hov, if_neg Bool.false_ne_true]
    obtain ⟨h1, h2, h3, h4⟩ :=
      pickLoop_spec maxFileSize files s l kMaxMemCompactLevel 0 (by omega)
    exact ⟨by simpa using h2, fun j hj => h3 j (Nat.zero_le _) hj, h4⟩

/-- A level-0 file overlapping keys 10–20, for the amended witness. -/
def c6F0 : FMeta := ⟨1, 100, ⟨15, 9, 1⟩, ⟨35, 8, 1⟩, 0⟩

/-- Level layout for the `pickLevelForMemTableOutput_amended` witness. -/
def c6WFiles : List (List FMeta) := [[c6F0], [], [], []]

theorem pickLevelForMemTableOutput_amended_witness :
    ((∀ f ∈ c6WFiles.getD 0 [], f.smallest.ukey ≤ f.largest.ukey) ∧
      10 ≤ 20) ∧
    (overlapInLevel c6WFiles 0 (some 10) (some 20) = true →
      pickLevelForMemTableOutput 100 c6WFiles 10 20 = 0) ∧
    pickLevelForMemTableOutput 100 c6WFiles 10 20 = 0 := by
  have h := pickLevelForMemTableOutput_amended 100 c6WFiles 10 20
    (by decide) (by decide)
  exact ⟨⟨by decide, by decide⟩, h.2.1, h.2.1 rfl⟩

/-! ### `VersionSet::LogAndApply` -/

/-- Outcomes of the environment calls `LogAndApply` makes: creating the
manifest file, writing the snapshot record, appending the edit record,
syncing the manifest, and rewriting CURRENT. -/
structure EnvOracle where
  newFileOk : Bool
  snapshotOk : Bool
  addRecordOk : Bool
  syncOk : Bool
  setCurrentOk : Bool
  deriving Repr, DecidableEq

/-- The externally visible file-system actions of `LogAndApply`, in
order. -/
inductive VAction where
  | createManifest (n : Nat)
  | writeSnapshot
  | addRecord
  | syncManifest
  | writeCurrent (n : Nat)
  | deleteFile (n : Nat)
  deriving Repr, DecidableEq

instance : Inhabited VAction := ⟨VAction.addRecord⟩

/-- The `VersionSet` state `LogAndApply` reads and writes: the current
version's file lists, the log numbers, the file-number/sequence counters,
the manifest file number, and whether a descriptor (manifest) file is
open. -/
structure VSState where
  current : List (List FMeta)
  logNumber : Nat
  prevLogNumber : Nat
  nextFileNumber : Nat
  lastSequence : Nat
  manifestFileNumber : Nat
  descriptorOpen : Bool
  deriving Repr, DecidableEq

/-- `VersionSet::LogAndApply` (`db/version_set.cc`): default the edit's
log numbers, build the new version from the current one, create the
manifest plus snapshot when none is open, append and sync the edit
record, rewrite CURRENT for a fresh manifest, and install the new version
only when every step succeeded; on failure the state is left unchanged
except that a freshly created manifest is closed and deleted.  Returns
(status ok?, new state, file-system action trace). -/
def logAndApply (env : EnvOracle) (vs : VSState) (edit : VersionEdit) :
    Bool × VSState × List VAction :=
  let editLog := edit.logNumber.getD vs.logNumber
  let editPrev := edit.prevLogNumber.getD vs.prevLogNumber
  let edit' := { edit with
    logNumber := some editLog,
    prevLogNumber := some editPrev,
    nextFileNumber := some vs.nextFileNumber,
    lastSequence := some vs.lastSequence }
  let v := saveTo (buildFrom [edit'] emptyBuilder) vs.current
  let createdNew := !vs.descriptorOpen
  let s1 := if createdNew then env.newFileOk && env.snapshotOk else true
  let t1 : List VAction :=
    if createdNew then
      if env.newFileOk then
        [VAction.createManifest vs.manifestFileNumber, VAction.writeSnapshot]
      else [VAction.createManifest vs.manifestFileNumber]
    else []
  let s2 := s1 && env.addRecordOk && env.syncOk
  let t2 := t1 ++
    (if s1 then
      if env.addRecordOk then [VAction.addRecord, VAction.syncManifest]
      else [VAction.addRecord]
    else [])
  let s3 := if createdNew then s2 && env.setCurrentOk else s2
  let t3 := t2 ++
    (if s2 && createdNew then [VAction.writeCurrent vs.manifestFileNumber]
     else [])
  if s3 then
    (true,
      { vs with
        current := v,
        logNumber := editLog,
        prevLogNumber := editPrev,
        descriptorOpen := true },
      t3)
  else
    (false,
      if createdNew then { vs with descriptorOpen := false } else vs,
      t3 ++ (if createdNew then [VAction.deleteFile vs.manifestFileNumber]
             else []))

/-- **C9**: `LogAndApply` is failure-atomic: when the status is not ok the
current version and both log numbers are unchanged; an attempted append
whose oracle fails, or an attempted sync whose oracle fails, makes the
status not ok; on failure a freshly created manifest is deleted and the
descriptor closed; and CURRENT is rewritten only after the edit record was
appended and synced successfully (both appear earlier in the trace). -/
theorem logAndApply_spec (env : EnvOracle) (vs : VSState)
    (edit : VersionEdit) :
    ((logAndApply env vs edit).1 = false →
      (logAndApply env vs edit).2.1.current = vs.current ∧
      (logAndApply env vs edit).2.1.logNumber = vs.logNumber ∧
      (logAndApply env vs edit).2.1.prevLogNumber = vs.prevLogNumber) ∧
    (VAction.addRecord ∈ (logAndApply env vs edit).2.2 ∧
        env.addRecordOk = false →
      (logAndApply env vs edit).1 = false) ∧
    (VAction.syncManifest ∈ (logAndApply env vs edit).2.2 ∧
        env.syncOk = false →
      (logAndApply env vs edit).1 = false) ∧
    ((logAndApply env vs edit).1 = false →
      VAction.createManifest vs.manifestFileNumber ∈
        (logAndApply env vs edit).2.2 →
      VAction.deleteFile vs.manifestFileNumber ∈
        (logAndApply env vs edit).2.2 ∧
      (logAndApply env vs edit).2.1.descriptorOpen = false) ∧
    (∀ n, VAction.writeCurrent n ∈ (logAndApply env vs edit).2.2 →
      env.addRecordOk = true ∧ env.syncOk = true ∧
      ∃ t1 t2, (logAndApply env vs edit).2.2 =
          t1 ++ VAction.writeCurrent n :: t2 ∧
        VAction.addRecord ∈ t1 ∧ VAction.syncManifest ∈ t1) := by
  obtain ⟨nf, ss, ar, sy, sc⟩ := env
  obtain ⟨cur, ln, pln, nfn, lseq, mfn, dOpen⟩ := vs
  refine ⟨?_, ?_, ?_, ?_, ?_⟩
  · cases dOpen <;> cases nf <;> cases ss <;> cases ar <;> cases sy <;>
      cases sc <;> simp [logAndApply]
  · cases dOpen <;> cases nf <;> cases ss <;> cases ar <;> cases sy <;>
      cases sc <;> simp [logAndApply]
  · cases dOpen <;> cases nf <;> cases ss <;> cases ar <;> cases sy <;>
      cases sc <;> simp [logAndApply]
  · cases dOpen <;> cases nf <;> cases ss <;> cases ar <;> cases sy <;>
      cases sc <;> simp [logAndApply]
  · cases dOpen <;> cases nf <;> cases ss <;> cases ar <;> cases sy <;>
      cases sc <;> simp [logAndApply] <;>
      exact ⟨[VAction.createManifest mfn, VAction.writeSnapshot,
        VAction.addRecord, VAction.syncManifest], ⟨_, rfl⟩, by simp,
        by simp⟩

/-- Oracle for the `logAndApply_spec` witness: the manifest sync fails. -/
def c9Env : EnvOracle := ⟨true, true, true, false, true⟩

/-- State for the `logAndApply_spec` witness: no manifest open yet. -/
def c9VS : VSState :=
  ⟨List.replicate kNumLevels [], 5, 0, 10, 50, 7, false⟩

/-- An empty edit for the `logAndApply_spec` witness. -/
def c9Edit : VersionEdit := {}

/-! ### `VersionSet::Recover` -/

/-- Status values `Recover` can return. -/
inductive RStatus where
  | ok
  | ioError
  | corruption
  | invalidArgument
  deriving Repr, DecidableEq

/-- One record read from the manifest: a decoded `VersionEdit`, a record
whose decode fails (`VersionEdit::DecodeFrom` returns corruption), or a
record the log reader itself reports as corrupt. -/
inductive MRec where
  | good (e : VersionEdit)
  | badDecode
  | corruptRecord
  deriving Repr, DecidableEq

/-- The record is a decoded edit carrying a log number. -/
def goodHasLog : MRec → Bool
  | .good e => e.logNumber.isSome
  | _ => false

/-- The record is a decoded edit carrying a previous log number. -/
def goodHasPrev : MRec → Bool
  | .good e => e.prevLogNumber.isSome
  | _ => false

/-- The record is a decoded edit carrying a next-file number. -/
def goodHasNext : MRec → Bool
  | .good e => e.nextFileNumber.isSome
  | _ => false

/-- The record is a decoded edit carrying a last sequence number. -/
def goodHasLast : MRec → Bool
  | .good e => e.lastSequence.isSome
  | _ => false

/-- The edit names a comparator different from the configured one
(comparator names modelled as numbers). -/
def cmpMismatch (cmp : Nat) (e : VersionEdit) : Bool :=
  match e.comparator with
  | some c => c != cmp
  | none => false

/-- The replay accumulator of `Recover`: the builder plus the
`have_*` / value bookkeeping of the loop. -/
structure RecAcc where
  b : Builder
  haveLog : Bool
  havePrev : Bool
  haveNext : Bool
  haveLast : Bool
  logNumber : Nat
  prevLogNumber : Nat
  nextFile : Nat
  lastSequence : Nat
  deriving Repr, DecidableEq

/-- The fresh accumulator (`Builder(this, current_)` on the empty version,
all flags false, all values 0). -/
def initRecAcc : RecAcc := ⟨emptyBuilder, false, false, false, false, 0, 0, 0, 0⟩

/-- One iteration of the replay loop: decode failures and corrupt records
set a non-ok status (the C++ reads the `has_*` flags of a partially
decoded edit in the decode-failure case, but the loop then exits with a
non-ok status, so nothing of that edit survives); a decoded edit is
checked against the comparator, applied to the builder when the check
passes, and its number fields are recorded either way. -/
def recStep (cmp : Nat) (acc : RecAcc) (r : MRec) : RStatus × RecAcc :=
  match r with
  | .corruptRecord => (RStatus.corruption, acc)
  | .badDecode => (RStatus.corruption, acc)
  | .good e =>
    let s := if cmpMismatch cmp e then RStatus.invalidArgument else RStatus.ok
    let b := if s = RStatus.ok then builderApply e acc.b else acc.b
    (s,
      { b := b,
        haveLog := acc.haveLog || e.logNumber.isSome,
        havePrev := acc.havePrev || e.prevLogNumber.isSome,
        haveNext := acc.haveNext || e.nextFileNumber.isSome,
        haveLast := acc.haveLast || e.lastSequence.isSome,
        logNumber := e.logNumber.getD acc.logNumber,
        prevLogNumber := e.prevLogNumber.getD acc.prevLogNumber,
        nextFile := e.nextFileNumber.getD acc.nextFile,
        lastSequence := e.lastSequence.getD acc.lastSequence })

/-- The replay loop (`while (reader.ReadRecord(...) && s.ok())`). -/
def recoverLoop (cmp : Nat) (rs : List MRec) (sa : RStatus × RecAcc) :
    RStatus × RecAcc :=
  match rs with
  | [] => sa
  | r :: rest =>
    if sa.1 = RStatus.ok then recoverLoop cmp rest (recStep cmp sa.2 r)
    else sa

/-- The state `Recover` installs on success. -/
structure RecState where
  files : List (List FMeta)
  manifestFileNumber : Nat
  nextFileNumber : Nat
  lastSequence : Nat
  logNumber : Nat
  prevLogNumber : Nat
  deriving Repr, DecidableEq

/-- The inputs `Recover` reads: the CURRENT file's bytes (`none` = read
failure; 10 is the newline byte), whether the named manifest can be
opened, and the manifest's records. -/
structure RecoverInput where
  currentFile : Option (List Nat)
  manifestOpen : Bool
  records : List MRec
  deriving Repr, DecidableEq

/-- `VersionSet::Recover` (`db/version_set.cc`): check CURRENT ends with a
newline, open the manifest, replay the edits onto a fresh builder while
the status is ok, require the next-file / log-number / last-sequence
entries (a missing prev-log-number defaults to 0), and only then build and
install the recovered version and counters. -/
def recover (cmp : Nat) (base : List (List FMeta)) (inp : RecoverInput) :
    RStatus × Option RecState :=
  match inp.currentFile with
  | none => (RStatus.ioError, none)
  | some cur =>
    if cur = [] ∨ cur.getLast? ≠ some 10 then (RStatus.corruption, none)
    else if !inp.manifestOpen then (RStatus.corruption, none)
    else
      let res := recoverLoop cmp inp.records (RStatus.ok, initRecAcc)
      if res.1 = RStatus.ok then
        if !res.2.haveNext then (RStatus.corruption, none)
        else if !res.2.haveLog then (RStatus.corruption, none)
        else if !res.2.haveLast then (RStatus.corruption, none)
        else
          (RStatus.ok, some
            { files := saveTo res.2.b base,
              manifestFileNumber := res.2.nextFile,
              nextFileNumber := res.2.nextFile + 1,
              lastSequence := res.2.lastSequence,
              logNumber := res.2.logNumber,
              prevLogNumber :=
                if res.2.havePrev then res.2.prevLogNumber else 0 })
      else (res.1, none)

theorem recoverLoop_stuck (cmp : Nat) (rs : List MRec) (s : RStatus)
    (acc : RecAcc) (h : s ≠ RStatus.ok) :
    recoverLoop cmp rs (s, acc) = (s, acc) := by
  cases rs with
  | nil => rfl
  | cons r rest => simp [recoverLoop, h]

theorem recoverLoop_spec (cmp : Nat) : ∀ (rs : List MRec) (acc : RecAcc),
    ((recoverLoop cmp rs (RStatus.ok, acc)).1 = RStatus.ok ↔
      ∀ r ∈ rs, ∃ e, r = MRec.good e ∧
        ∀ c, e.comparator = some c → c = cmp) ∧
    ((recoverLoop cmp rs (RStatus.ok, acc)).1 = RStatus.ok →
      (recoverLoop cmp rs (RStatus.ok, acc)).2.haveNext =
        (acc.haveNext || rs.any goodHasNext) ∧
      (recoverLoop cmp rs (RStatus.ok, acc)).2.haveLog =
        (acc.haveLog || rs.any goodHasLog) ∧
      (recoverLoop cmp rs (RStatus.ok, acc)).2.haveLast =
        (acc.haveLast || rs.any goodHasLast) ∧
      (recoverLoop cmp rs (RStatus.ok, acc)).2.havePrev =
        (acc.havePrev || rs.any goodHasPrev)) := by
  intro rs
  induction rs with
  | nil =>
    intro acc
    constructor
    · simp [recoverLoop]
    · intro _
      simp [recoverLoop]
  | cons r rest ih =>
    intro acc
    cases r with
    | corruptRecord =>
      have hres : recoverLoop cmp (MRec.corruptRecord :: rest)
          (RStatus.ok, acc) = (RStatus.corruption, acc) := by
        rw [recoverLoop, if_pos rfl]
        exact recoverLoop_stuck cmp rest _ _ (by simp)
      rw [hres]
      constructor
      · constructor
        · intro h
          simp at h
        · intro h
          rcases h MRec.corruptRecord (by simp) with ⟨e, he, _⟩
          exact absurd he (by simp)
      · intro h
        simp at h
    | badDecode =>
      have hres : recoverLoop cmp (MRec.badDecode :: rest)
          (RStatus.ok, acc) = (RStatus.corruption, acc) := by
        rw [recoverLoop, if_pos rfl]
        exact recoverLoop_stuck cmp rest _ _ (by simp)
      rw [hres]
      constructor
      · constructor
        · intro h
          simp at h
        · intro h
          rcases h MRec.badDecode (by simp) with ⟨e, he, _⟩
          exact absurd he (by simp)
      · intro h
        simp at h
    | good e =>
      by_cases hc : cmpMismatch cmp e = true
      · have hres : recoverLoop cmp (MRec.good e :: rest)
            (RStatus.ok, acc) = (RStatus.invalidArgument,
              (recStep cmp acc (MRec.good e)).2) := by
          rw [recoverLoop, if_pos rfl]
          have hstep : (recStep cmp acc (MRec.good e)).1 =
              RStatus.invalidArgument := by
            simp [recStep, hc]
          rw [show recStep cmp acc (MRec.good e) =
              ((recStep cmp acc (MRec.good e)).1,
               (recStep cmp acc (MRec.good e)).2) from rfl, hstep]
          exact recoverLoop_stuck cmp rest _ _ (by simp)
        rw [hres]
        constructor
        · constructor
          · intro h
            simp at h
          · intro h
            rcases h (MRec.good e) (by simp) with ⟨e', he', hcm⟩
            have he2 : e = e' := by
              injection he'
            subst he2
            unfold cmpMismatch at hc
            rcases hcmp : e.comparator with _ | c
            · rw [hcmp] at hc
              simp at hc
            · rw [hcmp] at hc
              have := hcm c hcmp
              simp [this] at hc
        · intro h
          simp at h
      · have hstep : recStep cmp acc (MRec.good e) =
            (RStatus.ok,
              { b := builderApply e acc.b,
                haveLog := acc.haveLog || e.logNumber.isSome,
                havePrev := acc.havePrev || e.prevLogNumber.isSome,
                haveNext := acc.haveNext || e.nextFileNumber.isSome,
                haveLast := acc.haveLast || e.lastSequence.isSome,
                logNumber := e.logNumber.getD acc.logNumber,
                prevLogNumber := e.prevLogNumber.getD acc.prevLogNumber,
                nextFile := e.nextFileNumber.getD acc.nextFile,
                lastSequence := e.lastSequence.getD acc.lastSequence }) := by
          simp [recStep, hc]
        have hres : recoverLoop cmp (MRec.good e :: rest)
            (RStatus.ok, acc) = recoverLoop cmp rest
              (RStatus.ok, (recStep cmp acc (MRec.good e)).2) := by
          rw [recoverLoop, if_pos rfl, hstep]
        rw [hres]
        obtain ⟨ih1, ih2⟩ := ih (recStep cmp acc (MRec.good e)).2
        constructor
        · rw [ih1]
          simp only [List.mem_cons, forall_eq_or_imp]
          constructor
          · intro h
            refine ⟨⟨e, rfl, ?_⟩, h⟩
            intro c hcc
            unfold cmpMismatch at hc
            rw [hcc] at hc
            simpa using hc
          · exact fun h => h.2
        · intro hok
          obtain ⟨h1, h2, h3, h4⟩ := ih2 hok
          refine ⟨?_, ?_, ?_, ?_⟩
          · rw [h1]
            simp [recStep, hc, goodHasNext, Bool.or_assoc]
          · rw [h2]
            simp [recStep, hc, goodHasLog, Bool.or_assoc]
          · rw [h3]
            simp [recStep, hc, goodHasLast, Bool.or_assoc]
          · rw [h4]
            simp [recStep, hc, goodHasPrev, Bool.or_assoc]

theorem logAndApply_spec_witness :
    ((VAction.syncManifest ∈ (logAndApply c9Env c9VS c9Edit).2.2 ∧
        c9Env.syncOk = false) ∧
      (logAndApply c9Env c9VS c9Edit).1 = false) ∧
    ((logAndApply c9Env c9VS c9Edit).2.1.current = c9VS.current ∧
      (logAndApply c9Env c9VS c9Edit).2.1.logNumber = c9VS.logNumber ∧
      (logAndApply c9Env c9VS c9Edit).2.1.prevLogNumber =
        c9VS.prevLogNumber) ∧
    (VAction.deleteFile c9VS.manifestFileNumber ∈
        (logAndApply c9Env c9VS c9Edit).2.2 ∧
      (logAndApply c9Env c9VS c9Edit).2.1.descriptorOpen = false) :=
  ⟨⟨⟨by decide, by decide⟩,
      (logAndApply_spec c9Env c9VS c9Edit).2.2.1 ⟨by decide, by decide⟩⟩,
    (logAndApply_spec c9Env c9VS c9Edit).1 (by decide),
    (logAndApply_spec c9Env c9VS c9Edit).2.2.2.1 (by decide) (by decide)⟩

/-- **C10**: `Recover` returns ok, and installs a recovered state, exactly
when CURRENT was read, is non-empty and ends with a newline, the manifest
opens, every record decodes to an edit whose comparator (when present)
matches the configured one, and the replay saw next-file, log-number and
last-sequence entries; nothing is installed whenever the status is not ok;
and a missing prev-log-number alone is tolerated: the installed previous
log number defaults to 0. -/
theorem recover_spec (cmp : Nat) (base : List (List FMeta))
    (inp : RecoverInput) :
    ((recover cmp base inp).1 = RStatus.ok ↔
      (∃ cur, inp.currentFile = some cur ∧ cur ≠ [] ∧
        cur.getLast? = some 10) ∧
      inp.manifestOpen = true ∧
      (∀ r ∈ inp.records, ∃ e, r = MRec.good e ∧
        ∀ c, e.comparator = some c → c = cmp) ∧
      inp.records.any goodHasNext = true ∧
      inp.records.any goodHasLog = true ∧
      inp.records.any goodHasLast = true) ∧
    ((recover cmp base inp).2 = none ↔
      (recover cmp base inp).1 ≠ RStatus.ok) ∧
    (∀ st, (recover cmp base inp).2 = some st →
      (∀ r ∈ inp.records, goodHasPrev r = false) →
      st.prevLogNumber = 0) := by
  rcases hcf : inp.currentFile with _ | cur
  · have hr : recover cmp base inp = (RStatus.ioError, none) := by
      unfold recover
      rw [hcf]
    rw [hr]
    refine ⟨?_, by simp, fun st hst => by simp at hst⟩
    constructor
    · intro h
      simp at h
    · rintro ⟨⟨cur, hcur, _, _⟩, _⟩
      exact absurd hcur (by simp)
  · by_cases hnl : cur = [] ∨ cur.getLast? ≠ some 10
    · have hr : recover cmp base inp = (RStatus.corruption, none) := by
        unfold recover
        rw [hcf]
        dsimp only
        rw [if_pos hnl]
      rw [hr]
      refine ⟨?_, by simp, fun st hst => by simp at hst⟩
      constructor
      · intro h
        simp at h
      · rintro ⟨⟨cur', hcur', hne, hlast⟩, _⟩
        injection hcur' with hcur'
        subst hcur'
        rcases hnl with h | h
        · exact (hne h).elim
        · exact (h hlast).elim
    · by_cases hmo : inp.manifestOpen = true
      · obtain ⟨l1, l2⟩ := recoverLoop_spec cmp inp.records initRecAcc
        have hne : cur ≠ [] := fun h => hnl (Or.inl h)
        have hlast : cur.getLast? = some 10 := by
          by_contra h
          exact hnl (Or.inr h)
        have hr : recover cmp base inp =
            (if (recoverLoop cmp inp.records (RStatus.ok, initRecAcc)).1 =
                RStatus.ok then
              if !(recoverLoop cmp inp.records
                  (RStatus.ok, initRecAcc)).2.haveNext then
                (RStatus.corruption, none)
              else if !(recoverLoop cmp inp.records
                  (RStatus.ok, initRecAcc)).2.haveLog then
                (RStatus.corruption, none)
              else if !(recoverLoop cmp inp.records
                  (RStatus.ok, initRecAcc)).2.haveLast then
                (RStatus.corruption, none)
              else
                (RStatus.ok, some
                  { files := saveTo (recoverLoop cmp inp.records
                      (RStatus.ok, initRecAcc)).2.b base,
                    manifestFileNumber := (recoverLoop cmp inp.records
                      (RStatus.ok, initRecAcc)).2.nextFile,
                    nextFileNumber := (recoverLoop cmp inp.records
                      (RStatus.ok, initRecAcc)).2.nextFile + 1,
                    lastSequence := (recoverLoop cmp inp.records
                      (RStatus.ok, initRecAcc)).2.lastSequence,
                    logNumber := (recoverLoop cmp inp.records
                      (RStatus.ok, initRecAcc)).2.logNumber,
                    prevLogNumber := if (recoverLoop cmp inp.records
                        (RStatus.ok, initRecAcc)).2.havePrev then
                      (recoverLoop cmp inp.records
                        (RStatus.ok, initRecAcc)).2.prevLogNumber
                    else 0 })
            else ((recoverLoop cmp inp.records (RStatus.ok, initRecAcc)).1,
              none)) := by
          unfold recover
          rw [hcf]
          dsimp only
          rw [if_neg hnl, hmo]
          rw [if_neg (show ¬((!true) = true) by decide)]
        rw [hr]
        by_cases hok : (recoverLoop cmp inp.records
            (RStatus.ok, initRecAcc)).1 = RStatus.ok
        · rw [if_pos hok]
          obtain ⟨e1, e2, e3, e4⟩ := l2 hok
          simp only [show initRecAcc.haveNext = false from rfl,
            show initRecAcc.haveLog = false from rfl,
            show initRecAcc.haveLast = false from rfl,
            show initRecAcc.havePrev = false from rfl,
            Bool.false_or] at e1 e2 e3 e4
          by_cases hnx : (recoverLoop cmp inp.records
              (RStatus.ok, initRecAcc)).2.haveNext = true
          · rw [if_neg (by simp [hnx])]
            by_cases hlg : (recoverLoop cmp inp.records
                (RStatus.ok, initRecAcc)).2.haveLog = true
            · rw [if_neg (by simp [hlg])]
              by_cases hls : (recoverLoop cmp inp.records
                  (RStatus.ok, initRecAcc)).2.haveLast = true
              · rw [if_neg (by simp [hls])]
                refine ⟨?_, by simp, ?_⟩
                · constructor
                  · intro _
                    exact ⟨⟨cur, rfl, hne, hlast⟩, hmo, l1.mp hok,
                      e1 ▸ hnx, e2 ▸ hlg, e3 ▸ hls⟩
                  · intro _
                    rfl
                · intro st hst hprev
                  injection hst with hst
                  subst hst
                  have hany : inp.records.any goodHasPrev = false :=
                    List.any_eq_false.mpr (by
                      intro r hrr
                      simp [hprev r hrr])
                  rw [hany] at e4
                  simp [e4]
              · rw [if_pos (by rw [Bool.eq_false_iff.mpr hls]; rfl)]
                refine ⟨?_, by simp, fun st hst => by simp at hst⟩
                constructor
                · intro h
                  simp at h
                · rintro ⟨_, _, _, _, _, hany⟩
                  rw [← e3] at hany
                  exact absurd hany hls
            · rw [if_pos (by rw [Bool.eq_false_iff.mpr hlg]; rfl)]
              refine ⟨?_, by simp, fun st hst => by simp at hst⟩
              constructor
              · intro h
                simp at h
              · rintro ⟨_, _, _, _, hany, _⟩
                rw [← e2] at hany
                exact absurd hany hlg
          · rw [if_pos (by rw [Bool.eq_false_iff.mpr hnx]; rfl)]
            refine ⟨?_, by simp, fun st hst => by simp at hst⟩
            constructor
            · intro h
              simp at h
            · rintro ⟨_, _, _, hany, _, _⟩
              rw [← e1] at hany
              exact absurd hany hnx
        · rw [if_neg hok]
          refine ⟨?_, by simp [hok], fun st hst => by simp at hst⟩
          constructor
          · intro h
            exact absurd h hok
          · rintro ⟨_, _, hall, _⟩
            exact absurd (l1.mpr hall) hok
      · have hmo' : inp.manifestOpen = false := by
          simpa using hmo
        have hr : recover cmp base inp = (RStatus.corruption, none) := by
          unfold recover
          rw [hcf]
          dsimp only
          rw [if_neg hnl, hmo']
          rw [if_pos (show (!false) = true from rfl)]
        rw [hr]
        refine ⟨?_, by simp, fun st hst => by simp at hst⟩
        constructor
        · intro h
          simp at h
        · rintro ⟨_, hopen, _⟩
          rw [hopen] at hmo'
          exact absurd hmo' (by simp)

/-- Manifest records for the `recover_spec` witness: one edit carrying
log-number, next-file and last-sequence but no prev-log-number. -/
def c10Edit : VersionEdit :=
  { logNumber := some 3, nextFileNumber := some 9, lastSequence := some 20 }

/-- Input for the `recover_spec` witness: a valid CURRENT (ends in the
newline byte), an openable manifest, one good record. -/
def c10Inp : RecoverInput := ⟨some [77, 10], true, [MRec.good c10Edit]⟩

/-- Base file lists for the `recover_spec` witness. -/
def c10Base : List (List FMeta) := List.replicate kNumLevels []

theorem recover_spec_witness :
    (∀ r ∈ c10Inp.records, goodHasPrev r = false) ∧
    ∀ st, (recover 1 c10Base c10Inp).2 = some st → st.prevLogNumber = 0 :=
  ⟨by decide, fun st hst =>
    (recover_spec 1 c10Base c10Inp).2.2 st hst (by decide)⟩

end LevelDB
